import Mathlib

/-!
Verification of the p4est forest-traversal engine (2D build, `P4_TO_P8` undefined)
against its natural-language specification.

The development shallowly embeds the code of `src/src/p4est_iterate.c` and
`src/example/p6est/p6est_lnodes.h`.  Helper routines of the repository that are
not part of those files (the quadrant bit manipulation of `p4est_bits.c`, the
array splitting of `p4est_algorithms.c`, the connectivity lookups) are modelled
from the specification; each such definition carries a doc comment starting
with `Modelled from the spec:`.

Machine integers: quadrant coordinates are 32-bit nonnegative integers below
`2 ^ P4EST_MAXLEVEL`; we embed them as `Nat`.  A C expression `x & mask` with
`mask = (-1) << (P4EST_MAXLEVEL - level)` clears the low `P4EST_MAXLEVEL -
level` bits of such a coordinate, which over `Nat` is
`x / 2 ^ (P4EST_MAXLEVEL - level) * 2 ^ (P4EST_MAXLEVEL - level)`; that is the
form used below.
-/

namespace P4est

/-- Modelled from the spec: maximum refinement level of a quadrant coordinate
(2D value of `P4EST_MAXLEVEL`; `p4est.h` is not under `src/`). -/
def P4EST_MAXLEVEL : Nat := 30

/-- Modelled from the spec: maximum level of an actual quadrant
(2D value of `P4EST_QMAXLEVEL`; `p4est.h` is not under `src/`). -/
def P4EST_QMAXLEVEL : Nat := 29

/-- Modelled from the spec: number of children of a quadrant in 2D
(`P4EST_CHILDREN`). -/
def P4EST_CHILDREN : Nat := 4

/-- Size of one tier of split offsets, `P4EST_ITER_STRIDE = P4EST_CHILDREN + 1`
(from `p4est_iterate.c`). -/
def P4EST_ITER_STRIDE : Nat := P4EST_CHILDREN + 1

/-- Modelled from the spec: a quadrant is a cell identified by an anchor
coordinate (two integer axes in 2D) and an integer refinement level
(spec section 3, Data model). -/
structure Quadrant where
  x : Nat
  y : Nat
  level : Nat
  deriving Repr, DecidableEq

/-- Length of one coordinate step at a level: `P4EST_QUADRANT_LEN (l)`. -/
def quadLen (l : Nat) : Nat := 2 ^ (P4EST_MAXLEVEL - l)

/-- Align a coordinate down to the grid of the given level; this is the `Nat`
reading of the C expression `x & mask` with
`mask = (-1) << (P4EST_MAXLEVEL - level)` on a coordinate below
`2 ^ P4EST_MAXLEVEL`. -/
def alignAt (x l : Nat) : Nat := x / quadLen l * quadLen l

/-- Child index of a quadrant relative to the subdivision at depth `l`
(which quarter of its level-`(l-1)` ancestor it lies in): bit
`P4EST_MAXLEVEL - l` of each coordinate, y-bit weighted by 2.  Used to model
the bisection of a quadrant range by ancestor-child id. -/
def childIdAt (l : Nat) (q : Quadrant) : Nat :=
  q.x / quadLen l % 2 + 2 * (q.y / quadLen l % 2)

/-- Modelled from the spec: the Morton interleaving of two coordinates, the
key of the space-filling order in which leaf cells are kept (spec section 3).
`fuel` bounds the number of interleaved bit pairs. -/
def interleave : Nat → Nat → Nat → Nat
  | 0, _, _ => 0
  | fuel + 1, x, y => x % 2 + 2 * (y % 2) + 4 * interleave fuel (x / 2) (y / 2)

/-- Modelled from the spec: `p4est_quadrant_compare` (in `p4est_bits.c`, not
under `src/`) orders quadrants by the space-filling (Morton) position of their
anchors and breaks ties by level; result is negative, zero or positive as in C.
-/
def quadCompare (q r : Quadrant) : Int :=
  if interleave P4EST_MAXLEVEL q.x q.y ≠ interleave P4EST_MAXLEVEL r.x r.y then
    (interleave P4EST_MAXLEVEL q.x q.y : Int) - interleave P4EST_MAXLEVEL r.x r.y
  else
    (q.level : Int) - r.level

/-- Modelled from the spec: `p4est_quadrant_is_equal` (in `p4est_bits.c`, not
under `src/`): same anchor and same level. -/
def quadIsEqual (q r : Quadrant) : Bool :=
  q.x == r.x && q.y == r.y && q.level == r.level

/-- Modelled from the spec: `p4est_quadrant_is_ancestor` (in `p4est_bits.c`,
not under `src/`): `q` is a strict ancestor of `r` when `q` has a smaller
level and `r`'s anchor aligned to `q.level` equals `q`'s anchor. -/
def quadIsAncestor (q r : Quadrant) : Bool :=
  q.level < r.level && alignAt r.x q.level == q.x && alignAt r.y q.level == q.y

/-- Embedding of `p4est_quadrant_compare_contains` (p4est_iterate.c, lines
689-707): compare two quadrants in Morton order but treat ancestor/descendant
pairs (and equal quadrants) as equal.  The C tests
`((q->x ^ r->x) & mask) || ((q->y ^ r->y) & mask)` with the mask of the
smaller level; over nonnegative coordinates this asks whether the coordinates
differ once aligned to the smaller level. -/
def quadCompareContains (q r : Quadrant) : Int :=
  let lvl := min q.level r.level
  if alignAt q.x lvl ≠ alignAt r.x lvl ∨ alignAt q.y lvl ≠ alignAt r.y lvl then
    quadCompare q r
  else
    0

/-- Split offsets of a quadrant range at a depth.  Modelled from the spec:
the contract of `p4est_split_array` (`p4est_algorithms.c`, not under `src/`)
as stated in section 4.1: given a quadrant range and a depth, the
`2 ^ d + 1` boundary offsets are produced by bisecting the range by
ancestor-child id at that depth; offset `k` is the number of quadrants of the
range whose child id at depth `level + 1` is below `k`. -/
def splitOffsets (view : List Quadrant) (level : Nat) : List Nat :=
  (List.range P4EST_ITER_STRIDE).map
    (fun k => view.countP (fun q => childIdAt (level + 1) q < k))

/-- Count of the quadrants of a range that fall in one child of the bisection.
-/
def childCount (view : List Quadrant) (level : Nat) (c : Nat) : Nat :=
  view.countP (fun q => childIdAt (level + 1) q = c)

/-- Sub-range of a quadrant range belonging to one child of the bisection. -/
def childSlice (view : List Quadrant) (level : Nat) (c : Nat) : List Quadrant :=
  (view.drop (view.countP (fun q => childIdAt (level + 1) q < c))).take
    (childCount view level c)

theorem countP_lt_succ_split (k : α → Nat) (c : Nat) (l : List α) :
    l.countP (fun a => k a < c + 1) =
      l.countP (fun a => k a < c) + l.countP (fun a => k a = c) := by
  induction l with
  | nil => simp
  | cons a l ih =>
    simp only [List.countP_cons, ih]
    rcases Nat.lt_trichotomy (k a) c with h | h | h
    · have h1 : k a < c + 1 := by omega
      have h2 : ¬ k a = c := by omega
      simp [h, h1, h2]
      omega
    · have h1 : k a < c + 1 := by omega
      have h2 : ¬ k a < c := by omega
      simp [h, h1, h2]
      omega
    · have h1 : ¬ k a < c + 1 := by omega
      have h2 : ¬ k a < c := by omega
      have h3 : ¬ k a = c := by omega
      simp [h1, h2, h3]

theorem slice_eq_filter_of_monotone (k : α → Nat) (c : Nat) :
    ∀ l : List α, l.Pairwise (fun a b => k a ≤ k b) →
      (l.drop (l.countP (fun a => k a < c))).take (l.countP (fun a => k a = c))
        = l.filter (fun a => k a = c) := by
  intro l hl
  induction l with
  | nil => simp
  | cons a l ih =>
    have hpair := (List.pairwise_cons.mp hl).1
    have htail := (List.pairwise_cons.mp hl).2
    rcases Nat.lt_trichotomy (k a) c with h | h | h
    · have h2 : ¬ k a = c := by omega
      have hc1 : (a :: l).countP (fun a => k a < c) =
          l.countP (fun a => k a < c) + 1 := by
        simp [List.countP_cons, h]
      have hc2 : (a :: l).countP (fun a => k a = c) =
          l.countP (fun a => k a = c) := by
        simp [List.countP_cons, h2]
      rw [hc1, hc2, List.drop_succ_cons, List.filter_cons_of_neg (by simp [h2]),
        ih htail]
    · have h1 : ¬ k a < c := by omega
      have hcount0 : l.countP (fun a => k a < c) = 0 := by
        rw [List.countP_eq_zero]
        intro b hb
        have := hpair b hb
        simp only [decide_eq_true_eq]
        omega
      have hc1 : (a :: l).countP (fun a => k a < c) = 0 := by
        simp only [List.countP_cons, hcount0]
        simp [h1]
      have hc2 : (a :: l).countP (fun a => k a = c) =
          l.countP (fun a => k a = c) + 1 := by
        simp [List.countP_cons, h]
      rw [hc1, hc2, List.drop_zero, List.take_succ_cons,
        List.filter_cons_of_pos (by simp [h])]
      have htake := ih htail
      rw [hcount0, List.drop_zero] at htake
      rw [htake]
    · have h1 : ¬ k a < c := by omega
      have h2 : ¬ k a = c := by omega
      have hall : ∀ b ∈ l, c < k b := by
        intro b hb
        have := hpair b hb
        omega
      have hcount0 : (a :: l).countP (fun a => k a < c) = 0 := by
        rw [List.countP_eq_zero]
        intro b hb
        rcases List.mem_cons.mp hb with h3 | h3
        · subst h3
          simpa using h1
        · have := hall b h3
          simp only [decide_eq_true_eq]
          omega
      have hcounteq0 : (a :: l).countP (fun a => k a = c) = 0 := by
        rw [List.countP_eq_zero]
        intro b hb
        rcases List.mem_cons.mp hb with h3 | h3
        · subst h3
          simpa using h2
        · have := hall b h3
          simp only [decide_eq_true_eq]
          omega
      have hfilter : (a :: l).filter (fun a => k a = c) = [] := by
        rw [List.filter_eq_nil_iff]
        intro b hb
        rcases List.mem_cons.mp hb with h3 | h3
        · subst h3
          simpa using h2
        · have := hall b h3
          simp only [decide_eq_true_eq]
          omega
      simp [hcount0, hcounteq0, hfilter]


/-! ### The bit-packed hanging code of `p6est_lnodes.h` -/

/-- Modelled from the spec: the two faces touching each corner of a 2D
quadrant (`p4est_corner_faces`, `p4est_connectivity.c`, not under `src/`). -/
def p4est_corner_faces : Nat → Nat → Nat
  | 0, 0 => 0 | 0, _ => 2
  | 1, 0 => 1 | 1, _ => 2
  | 2, 0 => 0 | 2, _ => 3
  | _, 0 => 1 | _, _ => 3

/-- Modelled from the spec: the index of a corner within the corner list of a
face touching it (`p4est_corner_face_corners`, not under `src/`). -/
def p4est_corner_face_corners : Nat → Nat → Int
  | 0, _ => 0
  | 1, 1 => 0 | 1, _ => 1
  | 2, 3 => 0 | 2, _ => 1
  | _, _ => 1

/-- Modelled from the spec: `p4est_lnodes_decode` (`p4est_lnodes.h`, not under
`src/`): the nested 4-bit sub-code for face-hanging detection of spec section
6.  The low two bits give the corner the element occupies inside its parent;
the next bits flag, for each of the two faces touching that corner, whether
that face is hanging, in which case the decoded value is the corner's index
inside the full face.  A zero code reports no hanging face and leaves the
array untouched. -/
def p4est_lnodes_decode (face_code : Nat) (hanging_face : List Int) :
    Bool × List Int :=
  if face_code ≠ 0 then
    let c := face_code % 4
    let work := face_code / 4
    let f0 := p4est_corner_faces c 0
    let f1 := p4est_corner_faces c 1
    let hf := hanging_face.set f0
      (if work % 2 = 1 then p4est_corner_face_corners c f0 else -1)
    let hf := hf.set f1
      (if work / 2 % 2 = 1 then p4est_corner_face_corners c f1 else -1)
    (true, hf)
  else
    (false, hanging_face)

/-- Modelled from the spec: the four edges of each side face of a 3D cell
(`p8est_face_edges`, `p8est_connectivity.c`, not under `src/`); only faces
0 to 3 are consulted by the decoder. -/
def p8est_face_edges : Nat → Nat → Nat
  | 0, 0 => 4 | 0, 1 => 6 | 0, 2 => 8 | 0, _ => 10
  | 1, 0 => 5 | 1, 1 => 7 | 1, 2 => 9 | 1, _ => 11
  | 2, 0 => 0 | 2, 1 => 2 | 2, 2 => 8 | 2, _ => 9
  | _, 0 => 1 | _, 1 => 3 | _, 2 => 10 | _, _ => 11

/-- Body of the per-face loop of `p6est_lnodes_decode` (`p6est_lnodes.h`,
lines 212-228) for one side face `f`: adjust the hanging-edge entries of the
edges of `f` from the face-hanging value and the layerwise nonconformity bit,
and shift the work bits. -/
def p6est_decode_face_step (h : Nat) (f : Nat) (work : Nat)
    (hf : List Int) (he : List Int) : List Int × List Int :=
  let hfv := hf.getD f (-1)
  let he :=
    if hfv ≥ 0 then
      let he := he.set (p8est_face_edges f 0) (2 + hfv)
      let he := he.set (p8est_face_edges f 1) (2 + hfv)
      he.set (p8est_face_edges f (3 ^^^ hfv.toNat)) 4
    else he
  if work % 2 = 1 then
    let he := he.set (p8est_face_edges f (1 ^^^ h)) 4
    let he := he.set (p8est_face_edges f 2) (2 + (h : Int))
    let he := he.set (p8est_face_edges f 3) (2 + (h : Int))
    let hf := if hf.getD f (-1) ≥ 0 then hf.set f (hf.getD f (-1) + 2 * h) else hf
    (hf, he)
  else
    (hf, he)

/-- Embedding of `p6est_lnodes_decode` (`p6est_lnodes.h`, lines 189-242).
The input arrays are returned unchanged ("not touched") when the code is
zero; otherwise they are rebuilt from the packed bits: low 4 bits the nested
2D sub-code, bit 4 the sibling-half indicator `h`, bits 5-8 the per-side-face
layerwise nonconformity flags, bits 9-12 the per-side-edge flags. -/
def p6est_lnodes_decode (face_code : Nat)
    (hanging_face : List Int) (hanging_edge : List Int) :
    Bool × List Int × List Int :=
  if face_code ≠ 0 then
    let fc4 := face_code % 16
    let h := face_code / 16 % 2
    let work := face_code / 32
    let hf0 := List.replicate 6 (-1 : Int)
    let he0 := List.replicate 12 (-1 : Int)
    let hf1 := (p4est_lnodes_decode fc4 hf0).2
    let s0 := p6est_decode_face_step h 0 work hf1 he0
    let s1 := p6est_decode_face_step h 1 (work / 2) s0.1 s0.2
    let s2 := p6est_decode_face_step h 2 (work / 4) s1.1 s1.2
    let s3 := p6est_decode_face_step h 3 (work / 8) s2.1 s2.2
    let ework := work / 16
    let he := (List.range 4).foldl
      (fun he e =>
        if ework / 2 ^ e % 2 = 1 ∧ he.getD (8 + e) (-1) < 0 then
          he.set (8 + e) (h : Int)
        else he) s3.2
    (true, s3.1, he)
  else
    (false, hanging_face, hanging_edge)

/-! ### Canonical-owner checks of the face/edge/corner init routines -/

/-- Boolean lexicographic order on (tree id, local entity index) pairs. -/
def lexLeB (a b : Nat × Nat) : Bool :=
  a.1 < b.1 || (a.1 == b.1 && a.2 ≤ b.2)

/-- Embedding of the canonical-owner check of `p4est_iter_init_corner`
(p4est_iterate.c, lines 666-675): the call is rejected when any other side
touching the corner has a larger tree id, or the same tree id and a larger
corner index. -/
def p4est_iter_init_corner_canonical (t c : Nat)
    (others : List (Nat × Nat)) : Bool :=
  others.all (fun s => !(decide (s.1 > t)) && !(s.1 == t && decide (s.2 > c)))

/-- Embedding of the canonical-owner check of `p8est_iter_init_edge`
(p4est_iterate.c, lines 1066-1074): the call is rejected when any other side
touching the edge has a larger tree id, or the same tree id and a larger edge
index. -/
def p8est_iter_init_edge_canonical (t e : Nat)
    (others : List (Nat × Nat)) : Bool :=
  others.all (fun s => !(decide (s.1 > t)) && !(s.1 == t && decide (s.2 > e)))

/-- Embedding of the canonical-owner check of `p4est_iter_init_face`
(p4est_iterate.c, lines 1585-1592): when the face has a neighboring tree
`nt` with face index `nf`, the call is rejected when `nt > t` or
`nt = t ∧ nf > f`. -/
def p4est_iter_init_face_canonical (t f : Nat)
    (neighbor : Option (Nat × Nat)) : Bool :=
  match neighbor with
  | none => true
  | some s => !(decide (s.1 > t)) && !(s.1 == t && decide (s.2 > f))

/-! ### The tier rings -/

/-- One memoized tier: the identity key of a quadrant range (`NULL` as
`none`) and the stored `P4EST_ITER_STRIDE` boundary offsets
(`p4est_iter_tier`, p4est_iterate.c, lines 35-40). -/
structure IterTier where
  key : Option Nat
  arr : List Nat
  deriving Repr, DecidableEq

/-- One per-depth ring of tiers with its rotating next-eviction index
(`p4est_iter_tier_ring`, p4est_iterate.c, lines 42-47). -/
structure IterTierRing where
  next : Nat
  tiers : List IterTier
  deriving Repr, DecidableEq

/-- Embedding of `p4est_iter_tier_rings_new` (p4est_iterate.c, lines 49-75):
one ring per depth below `P4EST_QMAXLEVEL`, each with
`P4EST_CHILDREN` tiers for a single process and `2 * P4EST_CHILDREN` tiers
otherwise, all keys initialized to `NULL`. -/
def p4est_iter_tier_rings_new (num_procs : Nat) : List IterTierRing :=
  let tier_ring_max := if num_procs == 1 then P4EST_CHILDREN
    else 2 * P4EST_CHILDREN
  (List.range P4EST_QMAXLEVEL).map
    (fun _ => { next := 0,
                tiers := List.replicate tier_ring_max
                  { key := none, arr := List.replicate P4EST_ITER_STRIDE 0 } })

/-- Modelled from the spec: the maximum number of simultaneous sides at an
entity, absent strange connectivity — `P4EST_CHILDREN` quadrants can meet at
a corner (code comment at p4est_iterate.c, lines 233-235). -/
def maxEntitySides : Nat := P4EST_CHILDREN

/-- Modelled from the spec: the ghost partition is tracked alongside the
local partition exactly when more than one process participates (with a
single process the ghost layer is empty). -/
def bothPartitionsTracked (num_procs : Nat) : Bool := num_procs != 1

/-! ### Theorems for claims C7, C2, C3, C9 -/

theorem canonical_pointwise (t e a b : Nat) :
    (!(decide (a > t)) && !(a == t && decide (b > e))) = true
      ↔ (a < t ∨ (a = t ∧ b ≤ e)) := by
  by_cases h1 : a > t
  · simp [h1] <;> omega
  · by_cases h2 : a = t
    · subst h2
      by_cases h3 : b > e
      · simp [h1, h3] <;> omega
      · simp [h1, h3] <;> omega
    · simp [h1, h2] <;> omega

theorem lexLeB_iff (a b : Nat × Nat) :
    lexLeB a b = true ↔ (a.1 < b.1 ∨ (a.1 = b.1 ∧ a.2 ≤ b.2)) := by
  rcases a with ⟨a1, a2⟩
  rcases b with ⟨b1, b2⟩
  by_cases h1 : a1 < b1
  · simp [lexLeB, h1]
  · by_cases h2 : a1 = b1
    · subst h2
      by_cases h3 : a2 ≤ b2
      · simp [lexLeB, h1, h3]
      · simp [lexLeB, h1, h3]
    · simp [lexLeB, h1, h2]

theorem canonical_all_lexLe (t e : Nat) (others : List (Nat × Nat))
    (h : others.all
      (fun s => !(decide (s.1 > t)) && !(s.1 == t && decide (s.2 > e))) = true) :
    ∀ p ∈ others, p.1 < t ∨ (p.1 = t ∧ p.2 ≤ e) := by
  intro p hp
  exact (canonical_pointwise t e p.1 p.2).mp
    (by simpa using List.all_eq_true.mp h p hp)

/-- Claim C7, counterexample: decoding the hanging-code zero returns 0 but
does not write `-1` into the output arrays — with an all-zero input
`hanging_face` array, the output `hanging_face` array is still all zero, so
the decoded result does not indicate "not hanging" (-1) for every face. -/
theorem claim_C7_counterexample :
    (p6est_lnodes_decode 0 (List.replicate 6 0) (List.replicate 12 0)).1
        = false ∧
      ¬ (∀ v ∈ (p6est_lnodes_decode 0 (List.replicate 6 0)
          (List.replicate 12 0)).2.1, v = -1) := by
  constructor
  · rfl
  · intro h
    have := h 0 (by decide)
    simp at this

/-- Claim C7, amended: decoding a hanging-code of zero with
`p6est_lnodes_decode` returns false/0, reporting the cell as fully
conforming, and leaves both output arrays untouched (rather than writing
"not hanging" values into them). -/
theorem claim_C7_theorem (hf he : List Int) :
    p6est_lnodes_decode 0 hf he = (false, hf, he) := rfl

/-- Claim C2: across one top-level call, no multi-tree entity has its
assembler run from more than one touching (tree id, local entity index)
pair — whenever two pairs each pass the canonical-owner check of the
corresponding init routine (corner, edge or face) while each appears among
the sides enumerated for the other, the two pairs are equal. -/
theorem claim_C2_theorem (pt pc qt qc : Nat) (op oq : List (Nat × Nat))
    (hqop : (qt, qc) ∈ op) (hpoq : (pt, pc) ∈ oq)
    (hboth :
      (p4est_iter_init_corner_canonical pt pc op = true ∧
        p4est_iter_init_corner_canonical qt qc oq = true) ∨
      (p8est_iter_init_edge_canonical pt pc op = true ∧
        p8est_iter_init_edge_canonical qt qc oq = true) ∨
      (p4est_iter_init_face_canonical pt pc (some (qt, qc)) = true ∧
        p4est_iter_init_face_canonical qt qc (some (pt, pc)) = true)) :
    (pt, pc) = (qt, qc) := by
  rcases hboth with ⟨h1, h2⟩ | ⟨h1, h2⟩ | ⟨h1, h2⟩
  · have ha := canonical_all_lexLe pt pc op h1 _ hqop
    have hb := canonical_all_lexLe qt qc oq h2 _ hpoq
    simp only at ha hb
    have hrw : pt = qt ∧ pc = qc := by omega
    rw [hrw.1, hrw.2]
  · have ha := canonical_all_lexLe pt pc op h1 _ hqop
    have hb := canonical_all_lexLe qt qc oq h2 _ hpoq
    simp only at ha hb
    have hrw : pt = qt ∧ pc = qc := by omega
    rw [hrw.1, hrw.2]
  · have ha : qt < pt ∨ (qt = pt ∧ qc ≤ pc) :=
      (canonical_pointwise pt pc qt qc).mp h1
    have hb : pt < qt ∨ (pt = qt ∧ pc ≤ qc) :=
      (canonical_pointwise qt qc pt pc).mp h2
    have hrw : pt = qt ∧ pc = qc := by omega
    rw [hrw.1, hrw.2]

/-- Claim C2, witness: the canonical checks at a concrete self-touching
configuration. -/
theorem claim_C2_witness :
    ((3 : Nat), (1 : Nat)) = ((3 : Nat), (1 : Nat)) :=
  claim_C2_theorem 3 1 3 1 [(3, 1)] [(3, 1)] (by decide) (by decide)
    (Or.inl (by decide))

/-- Claim C3, counterexample: the pair (tree 0, corner 0) is lexicographically
smallest among the pairs touching its corner (the only other pair being
(tree 1, corner 1)), yet the canonical-owner check of the corner init routine
rejects it — so the init routine does not accept exactly the lexicographically
smallest pair. -/
theorem claim_C3_counterexample :
    (lexLeB (0, 0) (1, 1) = true ∧ lexLeB (0, 0) (0, 0) = true) ∧
      p4est_iter_init_corner_canonical 0 0 [(1, 1)] = false := by decide

/-- Claim C3, amended: each init routine (face, edge, corner) accepts the pair
(t, i) if and only if (t, i) is lexicographically LARGEST among the touching
pairs enumerated via connectivity — every other touching pair is
lexicographically at most (t, i). -/
theorem claim_C3_theorem (t i : Nat) (others : List (Nat × Nat))
    (nb : Option (Nat × Nat)) :
    (p4est_iter_init_corner_canonical t i others = true ↔
      ∀ p ∈ others, lexLeB p (t, i) = true) ∧
    (p8est_iter_init_edge_canonical t i others = true ↔
      ∀ p ∈ others, lexLeB p (t, i) = true) ∧
    (p4est_iter_init_face_canonical t i nb = true ↔
      ∀ p ∈ nb.toList, lexLeB p (t, i) = true) := by
  have key : ∀ p : Nat × Nat,
      ((!(decide (p.1 > t)) && !(p.1 == t && decide (p.2 > i))) = true
        ↔ lexLeB p (t, i) = true) := by
    intro p
    rw [canonical_pointwise t i p.1 p.2, lexLeB_iff]
  refine ⟨?_, ?_, ?_⟩
  · rw [p4est_iter_init_corner_canonical, List.all_eq_true]
    exact forall₂_congr (fun p _ => key p)
  · rw [p8est_iter_init_edge_canonical, List.all_eq_true]
    exact forall₂_congr (fun p _ => key p)
  · cases nb with
    | none => simp [p4est_iter_init_face_canonical]
    | some p =>
      rw [show p4est_iter_init_face_canonical t i (some p)
          = (!(decide (p.1 > t)) && !(p.1 == t && decide (p.2 > i))) from rfl]
      rw [key p]
      simp

/-- Claim C9: the tier cache is one fixed-capacity ring per tree depth below
`P4EST_QMAXLEVEL`; each ring's capacity equals the maximum number of
simultaneous sides at an entity (`P4EST_CHILDREN`), doubled exactly when both
the local and the ghost partitions are tracked (more than one process). -/
theorem claim_C9_theorem (num_procs : Nat) :
    (p4est_iter_tier_rings_new num_procs).length = P4EST_QMAXLEVEL ∧
    ∀ ring ∈ p4est_iter_tier_rings_new num_procs,
      ring.tiers.length =
        (if bothPartitionsTracked num_procs then 2 * maxEntitySides
          else maxEntitySides) ∧
      ∀ tier ∈ ring.tiers, tier.key = none := by
  constructor
  · simp [p4est_iter_tier_rings_new]
  · intro ring hring
    simp only [p4est_iter_tier_rings_new, List.mem_map] at hring
    obtain ⟨l, _, hl⟩ := hring
    subst hl
    constructor
    · by_cases h : num_procs = 1
      · simp [h, bothPartitionsTracked, maxEntitySides]
      · simp [h, bothPartitionsTracked, maxEntitySides]
    · intro tier htier
      have := List.eq_of_mem_replicate htier
      simp [this]

/-! ### The tier cache: insert and update (claim C5) -/

/-- Embedding of `p4est_iter_tier_update` (p4est_iterate.c, lines 90-99):
split the quadrant range at the level and shift all `P4EST_ITER_STRIDE`
boundary offsets by the range's starting offset. -/
def p4est_iter_tier_update (view : List Quadrant) (level : Nat)
    (shift : Nat) : List Nat :=
  (splitOffsets view level).map (fun z => z + shift)

/-- Scan of the ring slots performed by `p4est_iter_tier_insert` in slot
order: report the first slot holding a `NULL` key (a miss with a free slot)
or the first slot whose key equals the probe (a hit, with the cached
offsets). -/
def tierScan (q : Nat) : List IterTier → Option (Nat × Bool × List Nat)
  | [] => none
  | tier :: rest =>
    match tier.key with
    | none => some (0, false, [])
    | some k =>
      if k == q then some (0, true, tier.arr)
      else (tierScan q rest).map (fun r => (r.1 + 1, r.2.1, r.2.2))

/-- Embedding of `p4est_iter_tier_insert` (p4est_iterate.c, lines 101-154).
Returns the resulting `next_tier` offsets, the updated rings, and whether
`p4est_iter_tier_update` (the binary search) was executed.  A `NULL` key
(empty range) yields all offsets equal to the shift; a level at or beyond
the ring count bypasses the cache; otherwise the ring of the level is
scanned: a hit returns the memoized offsets, a miss computes the offsets and
installs them in the first free slot, or, when the ring is full, over the
oldest slot (`ring->next`), advancing `next` cyclically. -/
def p4est_iter_tier_insert (view : List Quadrant) (level : Nat) (shift : Nat)
    (rings : List IterTierRing) (q : Option Nat) :
    List Nat × List IterTierRing × Bool :=
  match q with
  | none => (List.replicate P4EST_ITER_STRIDE shift, rings, false)
  | some qk =>
    if h : level < rings.length then
      let ring := rings.get ⟨level, h⟩
      let limit := ring.tiers.length
      match tierScan qk ring.tiers with
      | some (_, true, arr) => (arr, rings, false)
      | some (i, false, _) =>
        let nt := p4est_iter_tier_update view level shift
        let ring2 : IterTierRing :=
          { next := (ring.next + 1) % limit,
            tiers := ring.tiers.set i { key := some qk, arr := nt } }
        (nt, rings.set level ring2, true)
      | none =>
        let nt := p4est_iter_tier_update view level shift
        let ring2 : IterTierRing :=
          { next := (ring.next + 1) % limit,
            tiers := ring.tiers.set ring.next { key := some qk, arr := nt } }
        (nt, rings.set level ring2, true)
    else
      (p4est_iter_tier_update view level shift, rings, true)

/-- Consistency of one per-depth ring with the range identities: every cached
entry stores exactly the offsets a direct update of the keyed range would
produce at that depth. -/
def RingConsistentAt (level : Nat) (viewOf : Nat → List Quadrant)
    (shiftOf : Nat → Nat) (ring : IterTierRing) : Prop :=
  ∀ tier ∈ ring.tiers, ∀ k, tier.key = some k →
    tier.arr = p4est_iter_tier_update (viewOf k) level (shiftOf k)

/-- Consistency of the whole tier cache. -/
def RingsConsistent (viewOf : Nat → List Quadrant) (shiftOf : Nat → Nat)
    (rings : List IterTierRing) : Prop :=
  ∀ l : Nat, ∀ hl : l < rings.length,
    RingConsistentAt l viewOf shiftOf (rings.get ⟨l, hl⟩)

theorem tierScan_hit_mem (q : Nat) : ∀ (tiers : List IterTier) (i : Nat)
    (arr : List Nat), tierScan q tiers = some (i, true, arr) →
    { key := some q, arr := arr : IterTier } ∈ tiers := by
  intro tiers
  induction tiers with
  | nil =>
    intro i arr h
    simp [tierScan] at h
  | cons tier rest ih =>
    intro i arr h
    rcases tier with ⟨tk, ta⟩
    rcases tk with _ | k
    · simp [tierScan] at h
    · by_cases hk : k = q
      · subst hk
        simp only [tierScan, beq_self_eq_true, if_true, Option.some.injEq,
          Prod.mk.injEq] at h
        rw [← h.2.2]
        exact List.mem_cons_self _ _
      · simp only [tierScan, beq_iff_eq, hk, if_false] at h
        rcases hrest : tierScan q rest with _ | r
        · rw [hrest] at h
          simp at h
        · rw [hrest] at h
          rcases r with ⟨j, b, a2⟩
          simp only [Option.map_some', Option.some.injEq, Prod.mk.injEq] at h
          refine List.mem_cons_of_mem _ (ih j arr ?_)
          rw [hrest, h.2.1, h.2.2]

theorem tier_update_nil (level shift : Nat) :
    p4est_iter_tier_update [] level shift
      = List.replicate P4EST_ITER_STRIDE shift := by
  simp [p4est_iter_tier_update, splitOffsets, List.countP_nil,
    List.eq_replicate, P4EST_ITER_STRIDE, P4EST_CHILDREN]

theorem consistentAt_set_tier (level : Nat) (viewOf : Nat → List Quadrant)
    (shiftOf : Nat → Nat) (ring : IterTierRing) (j n2 qk : Nat)
    (hc : RingConsistentAt level viewOf shiftOf ring) :
    RingConsistentAt level viewOf shiftOf
      { next := n2,
        tiers := ring.tiers.set j
          { key := some qk,
            arr := p4est_iter_tier_update (viewOf qk) level (shiftOf qk) } } := by
  intro tier htier k hk
  rcases List.mem_or_eq_of_mem_set htier with h1 | h1
  · exact hc tier h1 k hk
  · subst h1
    simp only at hk
    injection hk with hk2
    subst hk2
    rfl

theorem consistent_set_ring (viewOf : Nat → List Quadrant)
    (shiftOf : Nat → Nat) (rings : List IterTierRing) (level : Nat)
    (ring2 : IterTierRing)
    (hcons : RingsConsistent viewOf shiftOf rings)
    (hr2 : RingConsistentAt level viewOf shiftOf ring2) :
    RingsConsistent viewOf shiftOf (rings.set level ring2) := by
  intro l hl
  have hlen : l < rings.length := by
    simpa using hl
  by_cases hEq : l = level
  · subst hEq
    have : (rings.set l ring2).get ⟨l, hl⟩ = ring2 := by
      rw [List.get_eq_getElem, List.getElem_set_self]
    rw [this]
    exact hr2
  · have : (rings.set level ring2).get ⟨l, hl⟩ = rings.get ⟨l, hlen⟩ := by
      rw [List.get_eq_getElem, List.get_eq_getElem,
        List.getElem_set_ne (fun hcontra => hEq hcontra.symm)]
    rw [this]
    exact hcons l hlen

/-- Claim C5, amended: every invocation of `p4est_iter_tier_insert`, run on a
tier cache whose cached entries agree with the range identities, leaves in
`next_tier` exactly the offsets that a direct `p4est_iter_tier_update`
(bisection of the range by ancestor-child id at the depth, shifted by the
range's starting offset) would produce; the resulting cache again agrees with
the range identities, and on a ring hit (update not executed) the cache is
returned unchanged.  Caching is therefore observationally equivalent to
recomputation; the binary search runs on first use of a (range, depth) pair
and again only after the pair's ring slot has been evicted. -/
theorem claim_C5_theorem (view : List Quadrant) (level shift : Nat)
    (rings : List IterTierRing) (q : Option Nat)
    (viewOf : Nat → List Quadrant) (shiftOf : Nat → Nat)
    (hcons : RingsConsistent viewOf shiftOf rings)
    (hkey : ∀ k, q = some k → viewOf k = view ∧ shiftOf k = shift)
    (hnone : q = none → view = []) :
    (p4est_iter_tier_insert view level shift rings q).1
        = p4est_iter_tier_update view level shift ∧
      RingsConsistent viewOf shiftOf
        (p4est_iter_tier_insert view level shift rings q).2.1 ∧
      ((p4est_iter_tier_insert view level shift rings q).2.2 = false →
        (p4est_iter_tier_insert view level shift rings q).2.1 = rings) := by
  cases q with
  | none =>
    refine ⟨?_, hcons, fun _ => rfl⟩
    rw [hnone rfl, tier_update_nil]
    rfl
  | some qk =>
    obtain ⟨hview, hshift⟩ := hkey qk rfl
    by_cases h : level < rings.length
    · simp only [p4est_iter_tier_insert, dif_pos h]
      rcases hscan : tierScan qk (rings.get ⟨level, h⟩).tiers
        with _ | ⟨i, b, arr⟩
      · simp only [hscan]
        refine ⟨trivial, ?_, fun hfalse => nomatch hfalse⟩
        have heq : p4est_iter_tier_update view level shift
            = p4est_iter_tier_update (viewOf qk) level (shiftOf qk) := by
          rw [hview, hshift]
        rw [heq]
        exact consistent_set_ring viewOf shiftOf rings level _ hcons
          (consistentAt_set_tier level viewOf shiftOf _ _ _ qk (hcons level h))
      · cases b with
        | true =>
          simp only [hscan]
          refine ⟨?_, hcons, fun _ => trivial⟩
          have hmem := tierScan_hit_mem qk _ i arr hscan
          have := hcons level h _ hmem qk rfl
          simp only at this
          rw [this, hview, hshift]
        | false =>
          simp only [hscan]
          refine ⟨trivial, ?_, fun hfalse => nomatch hfalse⟩
          have heq : p4est_iter_tier_update view level shift
              = p4est_iter_tier_update (viewOf qk) level (shiftOf qk) := by
            rw [hview, hshift]
          rw [heq]
          exact consistent_set_ring viewOf shiftOf rings level _ hcons
            (consistentAt_set_tier level viewOf shiftOf _ _ _ qk
              (hcons level h))
    · simp only [p4est_iter_tier_insert, dif_neg h]
      exact ⟨trivial, hcons, fun hfalse => nomatch hfalse⟩

/-- Claim C5, witness: the tier-insert equivalence run on a freshly created
cache with an empty range. -/
theorem claim_C5_witness :
    (p4est_iter_tier_insert [] 0 7 (p4est_iter_tier_rings_new 1) none).1
        = p4est_iter_tier_update [] 0 7 ∧
      RingsConsistent (fun _ => []) (fun _ => 0)
        (p4est_iter_tier_insert [] 0 7 (p4est_iter_tier_rings_new 1) none).2.1 ∧
      ((p4est_iter_tier_insert [] 0 7
          (p4est_iter_tier_rings_new 1) none).2.2 = false →
        (p4est_iter_tier_insert [] 0 7
          (p4est_iter_tier_rings_new 1) none).2.1
            = p4est_iter_tier_rings_new 1) :=
  claim_C5_theorem [] 0 7 (p4est_iter_tier_rings_new 1) none
    (fun _ => []) (fun _ => 0)
    (by
      intro l hl tier htier k hk
      have hr : (p4est_iter_tier_rings_new 1).get ⟨l, hl⟩ =
          { next := 0,
            tiers := List.replicate P4EST_CHILDREN
              { key := none, arr := List.replicate P4EST_ITER_STRIDE 0 } } := by
        simp [p4est_iter_tier_rings_new, List.get_eq_getElem]
      rw [hr] at htier
      have := List.eq_of_mem_replicate htier
      rw [this] at hk
      cases hk)
    (by intro k hk; cases hk)
    (fun _ => rfl)

/-- Claim C5, counterexample: with the single-process ring capacity of 4, six
inserts at depth 0 with range keys 1, 2, 3, 4, 5, 1 run the binary search on
the final insert as well — the slot of key 1 was evicted by key 5 — so the
binary search is not performed only on the first use of a (range, depth)
pair within a top-level call. -/
theorem claim_C5_counterexample :
    (p4est_iter_tier_insert [] 0 0
      ((p4est_iter_tier_insert [] 0 0
        ((p4est_iter_tier_insert [] 0 0
          ((p4est_iter_tier_insert [] 0 0
            ((p4est_iter_tier_insert [] 0 0
              ((p4est_iter_tier_insert [] 0 0
                (p4est_iter_tier_rings_new 1) (some 1)).2.1)
              (some 2)).2.1)
            (some 3)).2.1)
          (some 4)).2.1)
        (some 5)).2.1)
      (some 1)).2.2 = true ∧
    (p4est_iter_tier_insert [] 0 0
      (p4est_iter_tier_rings_new 1) (some 1)).2.2 = true := by
  constructor
  · rfl
  · rfl

/-! ### The corner assembler (claim C6) -/

instance : Inhabited Quadrant := ⟨⟨0, 0, 0⟩⟩

/-- Search area of one side and partition type: a half-open window
`[lo, lo + len)` into an underlying quadrant sequence, as tracked by the
`index`/`first_index`/`count` bookkeeping of the iteration context. -/
structure Area where
  arr : List Quadrant
  lo : Nat
  len : Nat
  deriving Repr

/-- Quadrants of the window of a search area. -/
def Area.view (a : Area) : List Quadrant := (a.arr.drop a.lo).take a.len

/-- Sub-area of a search area belonging to one child of the bisection at
`level + 1`, as produced by splitting the area with the tier offsets. -/
def Area.child (a : Area) (level : Nat) (c : Nat) : Area :=
  { arr := a.arr,
    lo := a.lo + a.view.countP (fun q => childIdAt (level + 1) q < c),
    len := a.view.countP (fun q => childIdAt (level + 1) q = c) }

/-- Smallest possible quadrant anchored at the given corner of the level-wide
cell containing the candidate (p4est_corner_iterate, lines 816-835): align
the candidate's anchor to the search level and offset each axis to the far
end for the corner's set axis bits. -/
def cornerTempQuad (level corner : Nat) (t : Quadrant) : Quadrant :=
  { x := alignAt t.x level +
      (if corner % 2 = 1 then quadLen level - quadLen P4EST_QMAXLEVEL else 0),
    y := alignAt t.y level +
      (if corner % 4 / 2 = 1 then quadLen level - quadLen P4EST_QMAXLEVEL
        else 0),
    level := P4EST_QMAXLEVEL }

/-- Modelled from the spec: `sc_array_bsearch` (libsc, not under `src/`) over
the sorted search window with the containment comparison
`p4est_quadrant_compare_contains`: the index of an element comparing equal to
the probe, `none` when there is none. -/
def bsearchContains (view : List Quadrant) (temp : Quadrant) : Option Nat :=
  view.findIdx? (fun q => quadCompareContains q temp == 0)

/-- Candidate selection and validation of `p4est_corner_iterate` for one side
and one partition type (p4est_iterate.c, lines 792-875): take the only
quadrant, or the last for the highest corner index, or the first otherwise;
build the smallest corner descendant `temp`; for a single candidate or an
extreme corner, keep the candidate only if it equals or is an ancestor of
`temp`; otherwise binary-search the window with the containment comparison.
Returns the window-relative index and the quadrant, `none` when no quadrant
of the area touches the corner. -/
def cornerSideCandidate (level corner : Nat) (area : Area) :
    Option (Nat × Quadrant) :=
  if area.len = 0 then none
  else
    let cand :=
      if area.len = 1 then (0, area.arr.getD area.lo default)
      else if corner = P4EST_CHILDREN - 1 then
        (area.len - 1, area.arr.getD (area.lo + area.len - 1) default)
      else (0, area.arr.getD area.lo default)
    let temp := cornerTempQuad level corner cand.2
    if area.len = 1 ∨ corner = 0 ∨ corner = P4EST_CHILDREN - 1 then
      if quadIsEqual cand.2 temp || quadIsAncestor cand.2 temp then some cand
      else none
    else
      match bsearchContains area.view temp with
      | none => none
      | some i => some (i, area.view.getD i default)

/-- Side record assembled by the corner iterator
(`p4est_iter_corner_side_t`). -/
structure CornerSideRec where
  treeid : Nat
  corner : Nat
  quad : Option Quadrant
  is_local : Bool
  quadid : Int
  deriving Repr, DecidableEq

/-- Per-side resolution of `p4est_corner_iterate`: the local partition is
searched first and the ghost partition only when the local search area
yields no valid candidate (the C skips the ghost type when
`test[side * 2 + local]` is non-NULL). -/
def cornerSideResolve (level treeid corner : Nat) (aLoc aGh : Area) :
    CornerSideRec :=
  match cornerSideCandidate level corner aLoc with
  | some c =>
    { treeid := treeid, corner := corner, quad := some c.2,
      is_local := true, quadid := (aLoc.lo + c.1 : Nat) }
  | none =>
    match cornerSideCandidate level corner aGh with
    | some c =>
      { treeid := treeid, corner := corner, quad := some c.2,
        is_local := false, quadid := (aGh.lo + c.1 : Nat) }
    | none =>
      { treeid := treeid, corner := corner, quad := none,
        is_local := false, quadid := -1 }

/-- Input of one side of the corner iterator: its tree, corner index and the
local/ghost search areas. -/
structure CornerSideIn where
  treeid : Nat
  corner : Nat
  aLoc : Area
  aGh : Area
  deriving Repr

/-- Embedding of `p4est_corner_iterate` (p4est_iterate.c, lines 709-885):
return the assembled side records of the single callback invocation, or
`none` when the callback is skipped — either because no side has local
quadrants in its search area (early return, lines 763-772) or because no
side's contributing quadrant is locally owned (lines 878-881). -/
def p4est_corner_iterate (level : Nat) (sides : List CornerSideIn) :
    Option (List CornerSideRec) :=
  if sides.all (fun s => s.aLoc.len = 0) then none
  else
    let recs := sides.map
      (fun s => cornerSideResolve level s.treeid s.corner s.aLoc s.aGh)
    if recs.any (fun r => r.is_local) then some recs
    else none

/-- Claim C6: the corner callback is never invoked when no quadrant incident
on the corner is locally owned — if the contributing quadrant resolved on
every side is absent or taken from the ghost layer (not local), the run of
`p4est_corner_iterate` skips the callback. -/
theorem claim_C6_theorem (level : Nat) (sides : List CornerSideIn)
    (h : ∀ s ∈ sides,
      (cornerSideResolve level s.treeid s.corner s.aLoc s.aGh).is_local
        = false) :
    p4est_corner_iterate level sides = none := by
  rw [p4est_corner_iterate]
  by_cases hall : sides.all (fun s => s.aLoc.len = 0)
  · rw [if_pos hall]
  · rw [if_neg hall]
    simp only
    have hany : (sides.map (fun s =>
        cornerSideResolve level s.treeid s.corner s.aLoc s.aGh)).any
        (fun r => r.is_local) = false := by
      rw [List.any_eq_false]
      intro r hr
      rcases List.mem_map.mp hr with ⟨s, hs, hmap⟩
      rw [← hmap]
      simp [h s hs]
    rw [hany]
    rfl

/-- Claim C6, witness: a corner whose only side has a non-matching local
area and a ghost-layer contribution — the callback is skipped. -/
theorem claim_C6_witness :
    p4est_corner_iterate 0
      [{ treeid := 0, corner := 0,
         aLoc := { arr := [⟨quadLen 1, 0, 1⟩], lo := 0, len := 1 },
         aGh := { arr := [⟨0, 0, 1⟩], lo := 0, len := 1 } }] = none :=
  claim_C6_theorem 0 _ (by decide)

/-! ### The face assembler (claims C4, C8)

The iterative loop of `p4est_face_iterate` (explicit `level_num` branch
counters and `goto change_search_area`) is transcribed as a recursion over
branches: one `faceVisit` call handles one search branch, descending into the
two child branches in `level_num` order; the tier-cache splits are recomputed
functionally (`Area.child`), which is observationally equivalent to the ring
cache by the theorems of claim C5. -/

/-- Provenance record of one full (conforming) side
(`p4est_iter_face_side_t`, the `is.full` variant): the quadrant (`none` for
the NULL quadrant of a missing side), whether it is local, and its index in
the local or ghost sequence (-1 when missing). -/
structure FullRec where
  quad : Option Quadrant
  is_local : Bool
  quadid : Int
  deriving Repr, DecidableEq

/-- The NULL full record: quadrant NULL, not local, index -1. -/
def nullFullRec : FullRec := { quad := none, is_local := false, quadid := -1 }

/-- Tagged side variant of a face side: full, or hanging with one slot per
child touching the interface (two in 2D), indexed by child corner. -/
inductive FaceSideKind where
  | full (r : FullRec)
  | hanging (h0 h1 : FullRec)
  deriving Repr, DecidableEq

/-- One side record of a face callback invocation. -/
structure FaceSideRec where
  treeid : Nat
  face : Nat
  kind : FaceSideKind
  deriving Repr, DecidableEq

/-- Observable events of a traversal: one entry per callback invocation with
the info record supplied to the callback. -/
inductive IterEvent where
  | volume (treeid : Nat) (quadid : Nat) (quad : Quadrant)
  | face (orientation : Nat) (sides : List FaceSideRec)
  | corner (sides : List CornerSideRec)
  deriving Repr, DecidableEq

/-- Pair of search areas of one side: local and ghost partitions. -/
structure AreaPair where
  loc : Area
  gh : Area
  deriving Repr

/-- Child areas of both partitions of a side, as produced by splitting via
the tier cache. -/
def AreaPair.child (p : AreaPair) (level c : Nat) : AreaPair :=
  { loc := p.loc.child level c, gh := p.gh.child level c }

/-- First quadrant of a search area (the C `test[sidetype]`; meaningful only
when the area is non-empty). -/
def Area.first (a : Area) : Quadrant := a.arr.getD a.lo default

/-- Whether the first quadrant of the area exists and sits exactly at the
search level (the C `test_level[sidetype] == *Level`). -/
def Area.atLevel (a : Area) (lv : Nat) : Bool :=
  a.len != 0 && (a.first.level == lv)

/-- Full record taken from the first quadrant of a search area. -/
def fullOf (a : Area) (isl : Bool) : FullRec :=
  { quad := some a.first, is_local := isl, quadid := (a.lo : Nat) }

/-- Static data of one `p4est_face_iterate` run
(`p4est_iter_face_args_t` plus the constant fields of the info record and
the presence flags of the callbacks). -/
structure FaceArgsStat where
  tid0 : Nat
  face0 : Nat
  tid1 : Nat
  face1 : Nat
  orientation : Nat
  outside : Bool
  ntc : Nat → Nat
  hasFace : Bool
  loopCorner : Bool

/-- Face event of a two-sided invocation, sides in fixed order. -/
def mkFaceEvent (stat : FaceArgsStat) (k0 k1 : FaceSideKind) : IterEvent :=
  .face stat.orientation
    [{ treeid := stat.tid0, face := stat.face0, kind := k0 },
     { treeid := stat.tid1, face := stat.face1, kind := k1 }]

/-- Face event of a single-sided (outside face) invocation. -/
def mkFaceEventOut (stat : FaceArgsStat) (k0 : FaceSideKind) : IterEvent :=
  .face stat.orientation
    [{ treeid := stat.tid0, face := stat.face0, kind := k0 }]

/-- Outcome of the candidate scan of one branch of `p4est_face_iterate`
(lines 1737-1803): an immediate callback invocation, an advance with no
callback (no face callback registered), or a fall-through carrying the
refine flags, the resolved full records and the `has_local` flag. -/
inductive ScanOut where
  | emit (ev : IterEvent)
  | next
  | fall (r0 r1 : Bool) (g0 g1 : Option FullRec) (hl : Bool)

/-- Scan steps of side 1 (`side = right`), reached after the side-0 steps:
a resolution checks the remaining forward sidetypes of side 0 (ghost only)
for a conforming partner, then whether side 0 is entirely empty. -/
def scanSide1 (stat : FaceArgsStat) (lv : Nat) (L R : AreaPair)
    (r0 : Bool) (g0 : Option FullRec) (hl : Bool) : ScanOut :=
  if R.loc.atLevel lv then
    if stat.hasFace then
      let f1 := fullOf R.loc true
      if L.gh.atLevel lv then
        .emit (mkFaceEvent stat (.full (fullOf L.gh false)) (.full f1))
      else if L.loc.len = 0 ∧ L.gh.len = 0 then
        .emit (mkFaceEvent stat (.full nullFullRec) (.full f1))
      else .fall r0 false g0 (some f1) true
    else .next
  else if R.gh.atLevel lv then
    if stat.hasFace then
      let f1 := fullOf R.gh false
      if L.loc.len = 0 ∧ L.gh.len = 0 then
        .emit (mkFaceEvent stat (.full nullFullRec) (.full f1))
      else .fall r0 false g0 (some f1) false
    else .next
  else .fall r0 true g0 none hl

/-- Candidate scan of one branch in the two-sided mode, processing the
sidetypes in the C order (left local, left ghost, right local, right ghost):
the first sidetype whose candidate sits at the branch level resolves its
side; its forward neighbor check either emits a conforming pair, emits with
an explicitly NULL opposite side when the opposite side is empty in both
partitions, or falls through with the side marked not-to-refine. -/
def scanInside (stat : FaceArgsStat) (lv : Nat) (L R : AreaPair) : ScanOut :=
  if L.loc.atLevel lv then
    if stat.hasFace then
      let g0 := fullOf L.loc true
      if R.loc.atLevel lv then
        .emit (mkFaceEvent stat (.full g0) (.full (fullOf R.loc true)))
      else if R.gh.atLevel lv then
        .emit (mkFaceEvent stat (.full g0) (.full (fullOf R.gh false)))
      else if R.loc.len = 0 ∧ R.gh.len = 0 then
        .emit (mkFaceEvent stat (.full g0) (.full nullFullRec))
      else scanSide1 stat lv L R false (some g0) true
    else .next
  else if L.gh.atLevel lv then
    if stat.hasFace then
      let g0 := fullOf L.gh false
      if R.gh.atLevel lv then
        .emit (mkFaceEvent stat (.full g0) (.full (fullOf R.gh false)))
      else if R.loc.len = 0 ∧ R.gh.len = 0 then
        .emit (mkFaceEvent stat (.full g0) (.full nullFullRec))
      else scanSide1 stat lv L R false (some g0) false
    else .next
  else scanSide1 stat lv L R true none false

/-- Candidate scan in the single-sided outside-face mode: a resolved left
candidate invokes the callback immediately (p4est_face_iterate, lines
1788-1792); there is no opposite side and no neighbor access. -/
def scanOutside (stat : FaceArgsStat) (lv : Nat) (L : AreaPair) : ScanOut :=
  if L.loc.atLevel lv then
    if stat.hasFace then .emit (mkFaceEventOut stat (.full (fullOf L.loc true)))
    else .next
  else if L.gh.atLevel lv then
    if stat.hasFace then .emit (mkFaceEventOut stat (.full (fullOf L.gh false)))
    else .next
  else .fall true true none none false

/-- One slot of the hanging side list (p4est_face_iterate, lines 1844-1867):
the local child is probed first, then the ghost child, the later write
overwriting; an empty child in both partitions leaves the NULL record. -/
def hangingSlot (ch : AreaPair) : FullRec :=
  let s := nullFullRec
  let s := if ch.loc.len ≠ 0 then fullOf ch.loc true else s
  if ch.gh.len ≠ 0 then fullOf ch.gh false else s

/-- Hanging assembly of `p4est_face_iterate` (lines 1822-1877): the side `n`
opposite the resolved coarse side is reported hanging; each of its two child
positions (given by `num_to_child`) is probed in the refined search areas,
the slot index being the child corner relative to the face; the callback is
invoked only when the coarse record or some local child contributes a local
quadrant. -/
def hangingAssembly (stat : FaceArgsStat) (lv : Nat) (L R : AreaPair)
    (n : Nat) (coarse : FullRec) (hl : Bool) : List IterEvent :=
  let pairN := if n = 0 then L else R
  let ch0 := pairN.child lv (stat.ntc (n * 2))
  let ch1 := pairN.child lv (stat.ntc (n * 2 + 1))
  let cc0 : Nat := if stat.ntc (n * 2) < stat.ntc (n * 2 + 1) then 0 else 1
  let cc1 : Nat := if stat.ntc (n * 2 + 1) < stat.ntc (n * 2) then 0 else 1
  let slots0 : FullRec × FullRec :=
    if cc0 = 0 then (hangingSlot ch0, nullFullRec)
    else (nullFullRec, hangingSlot ch0)
  let slots : FullRec × FullRec :=
    if cc1 = 0 then (hangingSlot ch1, slots0.2)
    else (slots0.1, hangingSlot ch1)
  let hl2 := hl || ch0.loc.len != 0 || ch1.loc.len != 0
  let hk := FaceSideKind.hanging slots.1 slots.2
  let ev := if n = 1 then mkFaceEvent stat (.full coarse) hk
    else mkFaceEvent stat hk (.full coarse)
  if hl2 then [ev] else []

/-- One branch of `p4est_face_iterate`: scan the branch; on a fall-through,
run the hanging assembly for the first unrefined side, or split both sides
and descend into the two child branches in `level_num` order, skipping
branches with no local quadrant, and finish the level with the corner hook
(`p4est_corner_iterate` on the sides built by
`p4est_iter_init_corner_from_face`) when a corner callback is registered. -/
def faceVisit (stat : FaceArgsStat) : Nat → Nat → AreaPair → AreaPair →
    List IterEvent
  | 0, _, _, _ => []
  | fuel + 1, lv, L, R =>
    let out := if stat.outside then scanOutside stat lv L
      else scanInside stat lv L R
    match out with
    | .emit ev => [ev]
    | .next => []
    | .fall r0 r1 g0 g1 hl =>
      if r0 = false then
        hangingAssembly stat lv L R 1 (g0.getD nullFullRec) hl
      else if r1 = false then
        hangingAssembly stat lv L R 0 (g1.getD nullFullRec) hl
      else
        let childEvents := (List.range 2).bind (fun b =>
          let Lb := L.child lv (stat.ntc b)
          let Rb := R.child lv (stat.ntc (2 + b))
          let empty := if stat.outside then Lb.loc.len = 0
            else Lb.loc.len = 0 ∧ Rb.loc.len = 0
          if empty then [] else faceVisit stat fuel (lv + 1) Lb Rb)
        let cornerEvents :=
          if stat.loopCorner then
            let limit := if stat.outside then 0 else 1
            let csides := (List.range 2).bind (fun j =>
              (List.range (limit + 1)).map (fun k =>
                let pairk := if k = 0 then L else R
                ({ treeid := if k = 0 then stat.tid0 else stat.tid1,
                   corner := stat.ntc (k * 2 + (1 - j)),
                   aLoc := pairk.loc.child lv (stat.ntc (k * 2 + j)),
                   aGh := pairk.gh.child lv (stat.ntc (k * 2 + j)) }
                  : CornerSideIn)))
            match p4est_corner_iterate (lv + 1) csides with
            | some recs => [IterEvent.corner recs]
            | none => []
          else []
        childEvents ++ cornerEvents

/-- Embedding of `p4est_face_iterate` (p4est_iterate.c, lines 1623-1964):
the entry check skips the whole run when no partition of the face can touch
a local quadrant (lines 1699-1710), then the branch recursion starts at the
given level. -/
def p4est_face_iterate (stat : FaceArgsStat) (fuel lv : Nat)
    (L R : AreaPair) : List IterEvent :=
  if (if stat.outside then L.loc.len = 0 else L.loc.len = 0 ∧ R.loc.len = 0)
    then []
  else faceVisit stat fuel lv L R

theorem scanOutside_emit_shape (stat : FaceArgsStat) (lv : Nat)
    (L : AreaPair) (ev : IterEvent)
    (h : scanOutside stat lv L = .emit ev) :
    ∃ r : FullRec, ev = mkFaceEventOut stat (.full r) ∧ r.quad.isSome = true := by
  rw [scanOutside] at h
  split_ifs at h <;> (cases h; exact ⟨_, rfl, rfl⟩)

theorem scanOutside_fall_shape (stat : FaceArgsStat) (lv : Nat)
    (L : AreaPair) (r0 r1 : Bool) (g0 g1 : Option FullRec) (hl : Bool)
    (h : scanOutside stat lv L = .fall r0 r1 g0 g1 hl) :
    r0 = true ∧ r1 = true := by
  rw [scanOutside] at h
  split_ifs at h <;> (cases h; exact ⟨rfl, rfl⟩)

theorem outside_face_events (stat : FaceArgsStat) (h : stat.outside = true) :
    ∀ fuel lv (L R : AreaPair) (ori : Nat) (sides : List FaceSideRec),
      IterEvent.face ori sides ∈ faceVisit stat fuel lv L R →
      ∃ r : FullRec,
        sides = [{ treeid := stat.tid0, face := stat.face0, kind := .full r }]
          ∧ r.quad.isSome = true := by
  intro fuel
  induction fuel with
  | zero =>
    intro lv L R ori sides hmem
    simp [faceVisit] at hmem
  | succ fuel ih =>
    intro lv L R ori sides hmem
    rw [faceVisit, if_pos h] at hmem
    cases hscan : scanOutside stat lv L with
    | emit ev =>
      simp only [hscan, List.mem_singleton] at hmem
      obtain ⟨r, hev, hq⟩ := scanOutside_emit_shape stat lv L ev hscan
      rw [hev, mkFaceEventOut] at hmem
      injection hmem with h1 h2
      exact ⟨r, h2, hq⟩
    | next =>
      simp only [hscan] at hmem
      simp at hmem
    | fall r0 r1 g0 g1 hl =>
      obtain ⟨hr0, hr1⟩ := scanOutside_fall_shape stat lv L r0 r1 g0 g1 hl hscan
      subst hr0
      subst hr1
      have hne : ¬ (true = false) := by simp
      simp only [hscan] at hmem
      rw [if_neg hne, if_neg hne] at hmem
      simp only [List.mem_append, List.mem_bind, List.mem_range] at hmem
      rcases hmem with ⟨b, _, hmem⟩ | hmem
      · rw [h] at hmem
        by_cases hemp : (L.child lv (stat.ntc b)).loc.len = 0
        · rw [if_pos (by simpa using hemp)] at hmem
          cases hmem
        · rw [if_neg (by simpa using hemp)] at hmem
          exact ih (lv + 1) _ _ ori sides hmem
      · by_cases hlc : stat.loopCorner
        · rw [if_pos hlc] at hmem
          rcases hcall : p4est_corner_iterate (lv + 1) _ with _ | recs
          · rw [hcall] at hmem
            cases hmem
          · rw [hcall] at hmem
            simp only [List.mem_singleton] at hmem
            cases hmem
        · rw [if_neg hlc] at hmem
          cases hmem

theorem outside_face_ignores_right (stat : FaceArgsStat)
    (h : stat.outside = true) :
    ∀ fuel lv (L R R2 : AreaPair),
      faceVisit stat fuel lv L R = faceVisit stat fuel lv L R2 := by
  intro fuel
  induction fuel with
  | zero =>
    intro lv L R R2
    rfl
  | succ fuel ih =>
    intro lv L R R2
    rw [faceVisit, faceVisit]
    simp only [h, eq_self_iff_true, if_true]
    cases hscan : scanOutside stat lv L with
    | emit ev => simp only [hscan]
    | next => simp only [hscan]
    | fall r0 r1 g0 g1 hl =>
      obtain ⟨hr0, hr1⟩ := scanOutside_fall_shape stat lv L r0 r1 g0 g1 hl hscan
      subst hr0
      subst hr1
      have hne : ¬ (true = false) := by simp
      simp only [hscan]
      rw [if_neg hne, if_neg hne, if_neg hne, if_neg hne]
      congr 1
      · rw [show List.range 2 = [0, 1] from rfl]
        simp only [List.cons_bind, List.nil_bind, List.append_nil]
        congr 1
        · by_cases hemp : (L.child lv (stat.ntc 0)).loc.len = 0
          · simp only [hemp, if_true]
          · simp only [hemp, if_false]
            exact ih (lv + 1) _ _ _
        · by_cases hemp : (L.child lv (stat.ntc 1)).loc.len = 0
          · simp only [hemp, if_true]
          · simp only [hemp, if_false]
            exact ih (lv + 1) _ _ _

/-- Claim C8: for a tree face on the domain boundary (outside_face mode),
(a) every face callback invocation reports exactly one side — the left — full
with a present quadrant, the opposite side being absent from the record;
(b) the run never consults the right-side search areas (the trace is
independent of them, no neighbor lookup); (c) the moment the left side's
candidate sits at the current depth, the callback is invoked immediately,
that branch contributing exactly that one invocation. -/
theorem claim_C8_theorem (stat : FaceArgsStat) (fuel lv : Nat)
    (L R R2 : AreaPair) (h : stat.outside = true) :
    (∀ ori sides, IterEvent.face ori sides ∈ p4est_face_iterate stat fuel lv L R →
      ∃ r : FullRec,
        sides = [{ treeid := stat.tid0, face := stat.face0, kind := .full r }]
          ∧ r.quad.isSome = true) ∧
    p4est_face_iterate stat fuel lv L R = p4est_face_iterate stat fuel lv L R2 ∧
    (stat.hasFace = true → L.loc.atLevel lv = true →
      faceVisit stat (fuel + 1) lv L R
        = [mkFaceEventOut stat (.full (fullOf L.loc true))]) := by
  refine ⟨?_, ?_, ?_⟩
  · intro ori sides hmem
    rw [p4est_face_iterate] at hmem
    by_cases hentry : (if stat.outside = true then L.loc.len = 0
        else L.loc.len = 0 ∧ R.loc.len = 0)
    · rw [if_pos hentry] at hmem
      cases hmem
    · rw [if_neg hentry] at hmem
      exact outside_face_events stat h fuel lv L R ori sides hmem
  · rw [p4est_face_iterate, p4est_face_iterate]
    simp only [h]
    by_cases hentry : L.loc.len = 0
    · rw [if_pos (by simpa using hentry), if_pos (by simpa using hentry)]
    · rw [if_neg (by simpa using hentry), if_neg (by simpa using hentry)]
      exact outside_face_ignores_right stat h fuel lv L R R2
  · intro hf hat
    rw [faceVisit, if_pos h, scanOutside, if_pos hat, if_pos hf]

/-- Claim C8, witness: a boundary face whose left area holds one root
quadrant. -/
theorem claim_C8_witness :
    (∀ ori sides, IterEvent.face ori sides ∈
        p4est_face_iterate
          { tid0 := 5, face0 := 2, tid1 := 0, face1 := 0, orientation := 0,
            outside := true, ntc := fun _ => 0, hasFace := true,
            loopCorner := false } 3 0
          { loc := ⟨[⟨0, 0, 0⟩], 0, 1⟩, gh := ⟨[], 0, 0⟩ }
          { loc := ⟨[], 0, 0⟩, gh := ⟨[], 0, 0⟩ } →
      ∃ r : FullRec,
        sides = [{ treeid := 5, face := 2, kind := .full r }]
          ∧ r.quad.isSome = true) ∧
    p4est_face_iterate
        { tid0 := 5, face0 := 2, tid1 := 0, face1 := 0, orientation := 0,
          outside := true, ntc := fun _ => 0, hasFace := true,
          loopCorner := false } 3 0
        { loc := ⟨[⟨0, 0, 0⟩], 0, 1⟩, gh := ⟨[], 0, 0⟩ }
        { loc := ⟨[], 0, 0⟩, gh := ⟨[], 0, 0⟩ }
      = p4est_face_iterate
        { tid0 := 5, face0 := 2, tid1 := 0, face1 := 0, orientation := 0,
          outside := true, ntc := fun _ => 0, hasFace := true,
          loopCorner := false } 3 0
        { loc := ⟨[⟨0, 0, 0⟩], 0, 1⟩, gh := ⟨[], 0, 0⟩ }
        { loc := ⟨[⟨0, 0, 1⟩], 0, 1⟩, gh := ⟨[], 0, 0⟩ } ∧
    ((true : Bool) = true → (Area.atLevel ⟨[⟨0, 0, 0⟩], 0, 1⟩ 0) = true →
      faceVisit
          { tid0 := 5, face0 := 2, tid1 := 0, face1 := 0, orientation := 0,
            outside := true, ntc := fun _ => 0, hasFace := true,
            loopCorner := false } 4 0
          { loc := ⟨[⟨0, 0, 0⟩], 0, 1⟩, gh := ⟨[], 0, 0⟩ }
          { loc := ⟨[], 0, 0⟩, gh := ⟨[], 0, 0⟩ }
        = [mkFaceEventOut
            { tid0 := 5, face0 := 2, tid1 := 0, face1 := 0, orientation := 0,
              outside := true, ntc := fun _ => 0, hasFace := true,
              loopCorner := false }
            (.full (fullOf ⟨[⟨0, 0, 0⟩], 0, 1⟩ true))]) :=
  claim_C8_theorem
    { tid0 := 5, face0 := 2, tid1 := 0, face1 := 0, orientation := 0,
      outside := true, ntc := fun _ => 0, hasFace := true,
      loopCorner := false } 3 0
    { loc := ⟨[⟨0, 0, 0⟩], 0, 1⟩, gh := ⟨[], 0, 0⟩ }
    { loc := ⟨[], 0, 0⟩, gh := ⟨[], 0, 0⟩ }
    { loc := ⟨[⟨0, 0, 1⟩], 0, 1⟩, gh := ⟨[], 0, 0⟩ } rfl

/-! ### Claim C4: a face between a level-L quadrant and level-(L+1) quadrants -/

/-- Where one fine child quadrant lives: in the local partition, in the ghost
layer, or in neither. -/
inductive Presence where
  | isLoc
  | isGh
  | isAbsent
  deriving Repr, DecidableEq

/-- Presence of one fine child in a child search-area pair: the area of its
partition holds exactly that quadrant (by two-to-one balance), the other
partition being empty. -/
def presenceAt (ch : AreaPair) (q : Quadrant) : Presence → Prop
  | .isLoc => ch.loc.len = 1 ∧ ch.loc.first = q ∧ ch.gh.len = 0
  | .isGh => ch.loc.len = 0 ∧ ch.gh.len = 1 ∧ ch.gh.first = q
  | .isAbsent => ch.loc.len = 0 ∧ ch.gh.len = 0

/-- The hanging-slot record demanded for one fine child: the child with its
provenance when present, NULL when absent from both partitions. -/
def slotSpec (ch : AreaPair) (q : Quadrant) : Presence → FullRec
  | .isLoc => { quad := some q, is_local := true, quadid := (ch.loc.lo : Nat) }
  | .isGh => { quad := some q, is_local := false, quadid := (ch.gh.lo : Nat) }
  | .isAbsent => nullFullRec

theorem hangingSlot_eq (ch : AreaPair) (q : Quadrant) (p : Presence)
    (hp : presenceAt ch q p) : hangingSlot ch = slotSpec ch q p := by
  cases p with
  | isLoc =>
    obtain ⟨h1, h2, h3⟩ := hp
    simp [hangingSlot, slotSpec, fullOf, h1, h2, h3]
  | isGh =>
    obtain ⟨h1, h2, h3⟩ := hp
    simp [hangingSlot, slotSpec, fullOf, h1, h2, h3]
  | isAbsent =>
    obtain ⟨h1, h2⟩ := hp
    simp [hangingSlot, slotSpec, h1, h2]

theorem presence_loc_len (ch : AreaPair) (q : Quadrant) (p : Presence)
    (hp : presenceAt ch q p) :
    (ch.loc.len != 0) = decide (p = Presence.isLoc) := by
  cases p with
  | isLoc =>
    obtain ⟨h1, _, _⟩ := hp
    simp [h1]
  | isGh =>
    obtain ⟨h1, _, _⟩ := hp
    simp [h1]
  | isAbsent =>
    obtain ⟨h1, _⟩ := hp
    simp [h1]

theorem atLevel_of_single (a : Area) (c : Quadrant) (lv : Nat)
    (hlen : a.len = 1) (hfirst : a.first = c) (hlevel : c.level = lv) :
    a.atLevel lv = true := by
  simp [Area.atLevel, hlen, hfirst, hlevel]

theorem atLevel_of_deep (a : Area) (lv : Nat)
    (hd : a.len ≠ 0 → lv < a.first.level) : a.atLevel lv = false := by
  by_cases hlen : a.len = 0
  · simp [Area.atLevel, hlen]
  · have := hd hlen
    simp only [Area.atLevel, Bool.and_eq_false_iff]
    right
    simp only [beq_eq_false_iff_ne, ne_eq]
    omega

theorem atLevel_of_empty (a : Area) (lv : Nat) (hlen : a.len = 0) :
    a.atLevel lv = false := by
  simp [Area.atLevel, hlen]

/-- Coarse record carried by the scan for the resolved side. -/
def coarseRecOf (C : AreaPair) (c : Quadrant) (cw : Bool) : FullRec :=
  if cw then { quad := some c, is_local := true, quadid := (C.loc.lo : Nat) }
  else { quad := some c, is_local := false, quadid := (C.gh.lo : Nat) }

theorem scanInside_coarse_left (stat : FaceArgsStat) (lv : Nat)
    (C F : AreaPair) (c : Quadrant) (cw : Bool)
    (hface : stat.hasFace = true)
    (hclevel : c.level = lv)
    (hcoarse : if cw then C.loc.len = 1 ∧ C.loc.first = c ∧ C.gh.len = 0
      else C.loc.len = 0 ∧ C.gh.len = 1 ∧ C.gh.first = c)
    (hFl : F.loc.len ≠ 0 → lv < F.loc.first.level)
    (hFg : F.gh.len ≠ 0 → lv < F.gh.first.level)
    (hFne : ¬ (F.loc.len = 0 ∧ F.gh.len = 0)) :
    scanInside stat lv C F
      = .fall false true (some (coarseRecOf C c cw)) none cw := by
  have hFlocA := atLevel_of_deep F.loc lv hFl
  have hFghA := atLevel_of_deep F.gh lv hFg
  cases cw with
  | true =>
    obtain ⟨h1, h2, h3⟩ := of_eq_true (eq_true_intro (if_pos rfl ▸ hcoarse))
    rw [scanInside, if_pos (atLevel_of_single C.loc c lv h1 h2 hclevel),
      if_pos hface, if_neg (by rw [hFlocA]; exact Bool.false_ne_true),
      if_neg (by rw [hFghA]; exact Bool.false_ne_true), if_neg hFne,
      scanSide1, if_neg (by rw [hFlocA]; exact Bool.false_ne_true),
      if_neg (by rw [hFghA]; exact Bool.false_ne_true)]
    rw [coarseRecOf, if_pos rfl, fullOf, h2]
  | false =>
    obtain ⟨h1, h2, h3⟩ : C.loc.len = 0 ∧ C.gh.len = 1 ∧ C.gh.first = c := by
      simpa using hcoarse
    rw [scanInside, if_neg (by
        rw [atLevel_of_empty C.loc lv h1]; exact Bool.false_ne_true),
      if_pos (atLevel_of_single C.gh c lv h2 h3 hclevel), if_pos hface,
      if_neg (by rw [hFghA]; exact Bool.false_ne_true), if_neg hFne,
      scanSide1, if_neg (by rw [hFlocA]; exact Bool.false_ne_true),
      if_neg (by rw [hFghA]; exact Bool.false_ne_true)]
    rw [coarseRecOf, if_neg (by exact Bool.false_ne_true), fullOf, h3]

theorem scanInside_coarse_right (stat : FaceArgsStat) (lv : Nat)
    (C F : AreaPair) (c : Quadrant) (cw : Bool)
    (hface : stat.hasFace = true)
    (hclevel : c.level = lv)
    (hcoarse : if cw then C.loc.len = 1 ∧ C.loc.first = c ∧ C.gh.len = 0
      else C.loc.len = 0 ∧ C.gh.len = 1 ∧ C.gh.first = c)
    (hFl : F.loc.len ≠ 0 → lv < F.loc.first.level)
    (hFg : F.gh.len ≠ 0 → lv < F.gh.first.level)
    (hFne : ¬ (F.loc.len = 0 ∧ F.gh.len = 0)) :
    scanInside stat lv F C
      = .fall true false none (some (coarseRecOf C c cw)) cw := by
  have hFlocA := atLevel_of_deep F.loc lv hFl
  have hFghA := atLevel_of_deep F.gh lv hFg
  rw [scanInside, if_neg (by rw [hFlocA]; exact Bool.false_ne_true),
    if_neg (by rw [hFghA]; exact Bool.false_ne_true), scanSide1]
  cases cw with
  | true =>
    obtain ⟨h1, h2, h3⟩ : C.loc.len = 1 ∧ C.loc.first = c ∧ C.gh.len = 0 := by
      simpa using hcoarse
    rw [if_pos (atLevel_of_single C.loc c lv h1 h2 hclevel), if_pos hface,
      if_neg (by rw [hFghA]; exact Bool.false_ne_true),
      if_neg hFne]
    rw [coarseRecOf, if_pos rfl, fullOf, h2]
  | false =>
    obtain ⟨h1, h2, h3⟩ : C.loc.len = 0 ∧ C.gh.len = 1 ∧ C.gh.first = c := by
      simpa using hcoarse
    rw [if_neg (by
        rw [atLevel_of_empty C.loc lv h1]; exact Bool.false_ne_true),
      if_pos (atLevel_of_single C.gh c lv h2 h3 hclevel), if_pos hface,
      if_neg hFne]
    rw [coarseRecOf, if_neg (by exact Bool.false_ne_true), fullOf, h3]

/-- Hanging side record demanded for the fine side: exactly two slots,
ordered by child corner (the smaller `num_to_child` id first), each slot the
`slotSpec` of its child. -/
def hangingKindSpec (P : AreaPair) (lv a b : Nat) (qa qb : Quadrant)
    (pa pb : Presence) : FaceSideKind :=
  .hanging
    (if a < b then slotSpec (P.child lv a) qa pa else slotSpec (P.child lv b) qb pb)
    (if a < b then slotSpec (P.child lv b) qb pb else slotSpec (P.child lv a) qa pa)

theorem hangingAssembly_eval (stat : FaceArgsStat) (lv : Nat)
    (L R : AreaPair) (n : Nat) (coarse : FullRec) (hl : Bool)
    (qa qb : Quadrant) (pa pb : Presence)
    (hpa : presenceAt ((if n = 0 then L else R).child lv (stat.ntc (n * 2)))
      qa pa)
    (hpb : presenceAt ((if n = 0 then L else R).child lv (stat.ntc (n * 2 + 1)))
      qb pb)
    (hab : stat.ntc (n * 2) ≠ stat.ntc (n * 2 + 1)) :
    hangingAssembly stat lv L R n coarse hl =
      if hl || decide (pa = Presence.isLoc) || decide (pb = Presence.isLoc)
      then
        [if n = 1 then
          mkFaceEvent stat (.full coarse)
            (hangingKindSpec (if n = 0 then L else R) lv (stat.ntc (n * 2))
              (stat.ntc (n * 2 + 1)) qa qb pa pb)
        else
          mkFaceEvent stat
            (hangingKindSpec (if n = 0 then L else R) lv (stat.ntc (n * 2))
              (stat.ntc (n * 2 + 1)) qa qb pa pb)
            (.full coarse)]
      else [] := by
  have ea := hangingSlot_eq _ qa pa hpa
  have eb := hangingSlot_eq _ qb pb hpb
  have la := presence_loc_len _ qa pa hpa
  have lb := presence_loc_len _ qb pb hpb
  by_cases hord : stat.ntc (n * 2) < stat.ntc (n * 2 + 1)
  · simp only [hangingAssembly, hangingKindSpec, ea, eb, la, lb, if_pos hord,
      if_neg (show ¬ stat.ntc (n * 2 + 1) < stat.ntc (n * 2) by omega)]
    simp
  · have hord2 : stat.ntc (n * 2 + 1) < stat.ntc (n * 2) := by omega
    simp only [hangingAssembly, hangingKindSpec, ea, eb, la, lb,
      if_neg hord, if_pos hord2]
    simp

/-- Claim C4: for an interior face between a level-`lv` quadrant (the coarse
side, local or ghost) and its level-`(lv+1)` fine children, the run of the
face assembler on that face's search branch invokes the face callback
exactly once when at least one participating quadrant is locally owned, and
not at all otherwise; the coarse side record is full, holding the coarse
quadrant with its provenance, the fine side record is hanging with exactly
two slots (2D), each slot whose child is present locally or in the ghost
layer holding that child with its provenance, and each slot whose child is
in neither set being NULL. -/
theorem claim_C4_theorem
    (stat : FaceArgsStat) (fuel lv cs : Nat) (cw : Bool)
    (C F : AreaPair) (c qa qb : Quadrant) (pa pb : Presence)
    (houtside : stat.outside = false)
    (hface : stat.hasFace = true)
    (hcs : cs = 0 ∨ cs = 1)
    (hclevel : c.level = lv)
    (hcoarse : if cw then C.loc.len = 1 ∧ C.loc.first = c ∧ C.gh.len = 0
      else C.loc.len = 0 ∧ C.gh.len = 1 ∧ C.gh.first = c)
    (hFl : F.loc.len ≠ 0 → lv < F.loc.first.level)
    (hFg : F.gh.len ≠ 0 → lv < F.gh.first.level)
    (hFne : ¬ (F.loc.len = 0 ∧ F.gh.len = 0))
    (hpa : presenceAt (F.child lv (stat.ntc ((1 - cs) * 2))) qa pa)
    (hpb : presenceAt (F.child lv (stat.ntc ((1 - cs) * 2 + 1))) qb pb)
    (hab : stat.ntc ((1 - cs) * 2) ≠ stat.ntc ((1 - cs) * 2 + 1)) :
    (cw = true ∨ pa = Presence.isLoc ∨ pb = Presence.isLoc →
      (if cs = 0 then faceVisit stat (fuel + 1) lv C F
        else faceVisit stat (fuel + 1) lv F C)
        = [if cs = 0 then
            mkFaceEvent stat (.full (coarseRecOf C c cw))
              (hangingKindSpec F lv (stat.ntc ((1 - cs) * 2))
                (stat.ntc ((1 - cs) * 2 + 1)) qa qb pa pb)
          else
            mkFaceEvent stat
              (hangingKindSpec F lv (stat.ntc ((1 - cs) * 2))
                (stat.ntc ((1 - cs) * 2 + 1)) qa qb pa pb)
              (.full (coarseRecOf C c cw))]) ∧
    (cw = false ∧ pa ≠ Presence.isLoc ∧ pb ≠ Presence.isLoc →
      (if cs = 0 then faceVisit stat (fuel + 1) lv C F
        else faceVisit stat (fuel + 1) lv F C) = []) := by
  have houts : ¬ (stat.outside = true) := by
    rw [houtside]
    exact Bool.false_ne_true
  rcases hcs with hcs | hcs
  · subst hcs
    have hscan := scanInside_coarse_left stat lv C F c cw hface hclevel
      hcoarse hFl hFg hFne
    have hha := hangingAssembly_eval stat lv C F 1 (coarseRecOf C c cw) cw
      qa qb pa pb hpa hpb hab
    have htrace : faceVisit stat (fuel + 1) lv C F
        = hangingAssembly stat lv C F 1 (coarseRecOf C c cw) cw := by
      rw [faceVisit, if_neg houts, hscan]
      rfl
    constructor
    · intro hcond
      have hcondB : (cw || decide (pa = Presence.isLoc)
          || decide (pb = Presence.isLoc)) = true := by
        rcases hcond with h1 | h1 | h1 <;> simp [h1]
      rw [htrace, hha, if_pos hcondB]
      rfl
    · intro ⟨h1, h2, h3⟩
      have hcondB : (cw || decide (pa = Presence.isLoc)
          || decide (pb = Presence.isLoc)) = false := by
        simp [h1, h2, h3]
      rw [htrace, hha, if_neg (show ¬ ((cw || decide (pa = Presence.isLoc)
        || decide (pb = Presence.isLoc)) = true) from by
          rw [hcondB]; exact Bool.false_ne_true)]
      rfl
  · subst hcs
    have hscan := scanInside_coarse_right stat lv C F c cw hface hclevel
      hcoarse hFl hFg hFne
    have hha := hangingAssembly_eval stat lv F C 0 (coarseRecOf C c cw) cw
      qa qb pa pb hpa hpb hab
    have htrace : faceVisit stat (fuel + 1) lv F C
        = hangingAssembly stat lv F C 0 (coarseRecOf C c cw) cw := by
      rw [faceVisit, if_neg houts, hscan]
      rfl
    constructor
    · intro hcond
      have hcondB : (cw || decide (pa = Presence.isLoc)
          || decide (pb = Presence.isLoc)) = true := by
        rcases hcond with h1 | h1 | h1 <;> simp [h1]
      rw [htrace, hha, if_pos hcondB]
      rfl
    · intro ⟨h1, h2, h3⟩
      have hcondB : (cw || decide (pa = Presence.isLoc)
          || decide (pb = Presence.isLoc)) = false := by
        simp [h1, h2, h3]
      rw [htrace, hha, if_neg (show ¬ ((cw || decide (pa = Presence.isLoc)
        || decide (pb = Presence.isLoc)) = true) from by
          rw [hcondB]; exact Bool.false_ne_true)]
      rfl

/-- Witness forest slice for claim C4: one tree whose child 0 is a level-1
leaf and whose child 1 is refined once into four level-2 leaves. -/
def c4Tree : List Quadrant :=
  [⟨0, 0, 1⟩, ⟨2 ^ 29, 0, 2⟩, ⟨2 ^ 29 + 2 ^ 28, 0, 2⟩,
    ⟨2 ^ 29, 2 ^ 28, 2⟩, ⟨2 ^ 29 + 2 ^ 28, 2 ^ 28, 2⟩]

/-- Witness face arguments for claim C4: the x-direction face between
children 0 and 1 inside one tree. -/
def c4Stat : FaceArgsStat :=
  { tid0 := 0, face0 := 1, tid1 := 0, face1 := 0, orientation := 0,
    outside := false, ntc := fun i => [1, 3, 0, 2].getD i 0,
    hasFace := true, loopCorner := false }

/-- Witness left (coarse) search areas for claim C4. -/
def c4C : AreaPair :=
  { loc := ⟨c4Tree, 0, 1⟩, gh := ⟨[], 0, 0⟩ }

/-- Witness right (fine) search areas for claim C4. -/
def c4F : AreaPair :=
  { loc := ⟨c4Tree, 1, 4⟩, gh := ⟨[], 0, 0⟩ }

/-- Claim C4, witness: the hanging face of the witness forest fires exactly
once, coarse side full, fine side hanging with its two local children. -/
theorem claim_C4_witness :
    faceVisit c4Stat 4 1 c4C c4F
      = [mkFaceEvent c4Stat (.full (coarseRecOf c4C ⟨0, 0, 1⟩ true))
          (hangingKindSpec c4F 1 0 2 ⟨2 ^ 29, 0, 2⟩ ⟨2 ^ 29, 2 ^ 28, 2⟩
            Presence.isLoc Presence.isLoc)] := by
  have h := claim_C4_theorem c4Stat 3 1 0 true c4C c4F ⟨0, 0, 1⟩
    ⟨2 ^ 29, 0, 2⟩ ⟨2 ^ 29, 2 ^ 28, 2⟩ Presence.isLoc Presence.isLoc
    rfl rfl (Or.inl rfl) rfl (by decide) (by decide) (by decide) (by decide)
    ⟨by decide, by decide, by decide⟩ ⟨by decide, by decide, by decide⟩
    (by decide)
  exact h.1 (Or.inl rfl)

/-! ### Volume driver and top-level driver (claims C1, C10) -/

/-- Modelled from the spec: the corners of each face of a 2D quadrant in the
z-order face numbering (0: -x, 1: +x, 2: -y, 3: +y), collapsing the
rface/zface conversions of the 2D code (`p4est_face_corners`,
`p4est_zface_to_rface`, `p4est_rface_to_zface` of `p4est_bits.c`, not under
`src/`). -/
def p4est_face_corners_z : Nat → Nat → Nat
  | 0, 0 => 0 | 0, _ => 2
  | 1, 0 => 1 | 1, _ => 3
  | 2, 0 => 0 | 2, _ => 1
  | _, 0 => 2 | _, _ => 3

/-- Modelled from the spec: the static connectivity table — for each
(tree, face) the neighboring tree, its face index and the orientation code
(`none` at the domain boundary), the child-id mapping across a tree face
(what `p4est_quadrant_face_neighbor_extra` reports), and for each
(tree, corner) the other (tree, corner) pairs incident on the geometric
corner (what the face/corner neighbor enumeration of
`p4est_iter_init_corner` produces). -/
structure P4estConn where
  faceNeighbor : Nat → Nat → Option (Nat × Nat × Nat)
  faceChildId : Nat → Nat → Nat → Nat
  cornerSides : Nat → Nat → List (Nat × Nat)

/-- The forest as consumed by the traversal: the connectivity, the per-tree
quadrant sequences, and the range of local trees. -/
structure P4estForest where
  conn : P4estConn
  trees : List (List Quadrant)
  first_local_tree : Int
  last_local_tree : Int

/-- Modelled from the spec: the per-tree offsets of the ghost layer
(`p4est_split_ghost_layer_by_tree`, using the piggybacked owning tree of
each ghost quadrant; the ghost layer is sorted by owning tree). -/
def ghostOffsets (ghost : List (Quadrant × Nat)) (t : Nat) : Nat :=
  ghost.countP (fun g => g.2 < t)

/-- The quadrant sequence underlying the ghost layer. -/
def ghostArr (ghost : List (Quadrant × Nat)) : List Quadrant :=
  ghost.map (fun g => g.1)

/-- Search-area pair covering one whole tree: the full local quadrant
sequence of the tree and the tree's slice of the ghost layer
(`p4est_iter_init_loop_volume` / the per-side initialization of the face and
corner loops). -/
def treePair (trees : List (List Quadrant)) (ghost : List (Quadrant × Nat))
    (t : Nat) : AreaPair :=
  { loc := ⟨trees.getD t [], 0, (trees.getD t []).length⟩,
    gh := ⟨ghostArr ghost, ghostOffsets ghost t,
      ghostOffsets ghost (t + 1) - ghostOffsets ghost t⟩ }

/-- Embedding of `p4est_volume_iterate_simple` (p4est_iterate.c, lines
2164-2191): the fast path visits, for each tree from the first to the last
local tree, every quadrant of the tree in stored order. -/
def p4est_volume_iterate_simple (trees : List (List Quadrant))
    (first last : Int) : List IterEvent :=
  (List.range' first.toNat (last + 1 - first).toNat).bind (fun t =>
    (List.range (trees.getD t []).length).map
      (fun si => IterEvent.volume t si ((trees.getD t []).getD si default)))

/-- Face-hook arguments built by `p4est_iter_init_face_from_volume`
(p4est_iterate.c, lines 1980-2040) for direction `dir`: an intra-tree face
between two child branches, left side the face `2 dir + 1`, right side the
face `2 dir`, `num_to_child` from the face-corner table. -/
def volFaceStat (t : Nat) (hasFace loopCorner : Bool) (dir : Nat) :
    FaceArgsStat :=
  { tid0 := t, face0 := 2 * dir + 1, tid1 := t, face1 := 2 * dir,
    orientation := 0, outside := false,
    ntc := fun i => p4est_face_corners_z (dir * 2 + (1 - i / 2)) (i % 2),
    hasFace := hasFace, loopCorner := loopCorner }

/-- One branch of `p4est_volume_iterate` (p4est_iterate.c, lines 2194-2335):
a local candidate at the branch level fires the volume callback and closes
the branch; a ghost candidate at the level closes it silently; otherwise the
branch splits into the four children (descending only into those with local
quadrants) and then launches the face assemblers for every direction/pair
and the corner assembler between the children. -/
def volVisit (t : Nat) (hasVolume hasFace loopCorner : Bool) :
    Nat → Nat → AreaPair → List IterEvent
  | 0, _, _ => []
  | fuel + 1, lv, A =>
    if A.loc.atLevel lv then
      if hasVolume then [IterEvent.volume t A.loc.lo A.loc.first] else []
    else if A.gh.atLevel lv then []
    else
      let volEvents := (List.range 4).bind (fun b =>
        if (A.child lv b).loc.len = 0 then []
        else volVisit t hasVolume hasFace loopCorner fuel (lv + 1)
          (A.child lv b))
      let faceEvents := (List.range 2).bind (fun dir =>
        (List.range 2).bind (fun pos =>
          p4est_face_iterate (volFaceStat t hasFace loopCorner dir) fuel
            (lv + 1)
            (A.child lv (p4est_face_corners_z (dir * 2) pos))
            (A.child lv (p4est_face_corners_z (dir * 2 + 1) pos))))
      let cornerEvents :=
        if loopCorner then
          match p4est_corner_iterate (lv + 1)
            ((List.range 4).map (fun i =>
              { treeid := t, corner := 3 - i,
                aLoc := (A.child lv i).loc, aGh := (A.child lv i).gh })) with
          | some recs => [IterEvent.corner recs]
          | none => []
        else []
      volEvents ++ faceEvents ++ cornerEvents

/-- Embedding of `p4est_volume_iterate`: the run returns immediately when the
tree has no local quadrant, and otherwise starts the branch recursion at
level 0 on the whole tree. -/
def p4est_volume_iterate (t : Nat) (hasVolume hasFace loopCorner : Bool)
    (fuel : Nat) (A : AreaPair) : List IterEvent :=
  if A.loc.len = 0 then []
  else volVisit t hasVolume hasFace loopCorner fuel 0 A

/-- Inter-tree face processing of the top-level loop (p4est_iterate.c, lines
2437-2450 with `p4est_iter_init_face`, lines 1495-1604): build the face
arguments from the connectivity, reject non-canonical inter-tree pairs, and
run the face assembler over the two whole trees (single-sided at the domain
boundary). -/
def interTreeFace (p : P4estForest) (ghost : List (Quadrant × Nat))
    (hasFace hasCorner : Bool) (fuel t f : Nat) : List IterEvent :=
  match p.conn.faceNeighbor t f with
  | none =>
    p4est_face_iterate
      { tid0 := t, face0 := f, tid1 := 0, face1 := 0, orientation := 0,
        outside := true,
        ntc := fun i => p4est_face_corners_z f (i % 2),
        hasFace := hasFace, loopCorner := hasCorner } fuel 0
      (treePair p.trees ghost t) (treePair p.trees ghost t)
  | some nb =>
    if p4est_iter_init_face_canonical t f (some (nb.1, nb.2.1)) then
      p4est_face_iterate
        { tid0 := t, face0 := f, tid1 := nb.1, face1 := nb.2.1,
          orientation := nb.2.2, outside := false,
          ntc := fun i => if i < 2 then p4est_face_corners_z f i
            else p.conn.faceChildId t f (i - 2),
          hasFace := hasFace, loopCorner := hasCorner } fuel 0
        (treePair p.trees ghost t) (treePair p.trees ghost nb.1)
    else []

/-- Inter-tree corner processing of the top-level loop (p4est_iterate.c,
lines 2467-2476 with `p4est_iter_init_corner`, lines 574-680): enumerate the
touching (tree, corner) pairs via connectivity, reject non-canonical pairs,
and run the corner assembler over the whole trees. -/
def interTreeCorner (p : P4estForest) (ghost : List (Quadrant × Nat))
    (t c : Nat) : List IterEvent :=
  let others := p.conn.cornerSides t c
  if p4est_iter_init_corner_canonical t c others then
    match p4est_corner_iterate 0
      (({ treeid := t, corner := c,
          aLoc := (treePair p.trees ghost t).loc,
          aGh := (treePair p.trees ghost t).gh } : CornerSideIn)
        :: others.map (fun s =>
          { treeid := s.1, corner := s.2,
            aLoc := (treePair p.trees ghost s.1).loc,
            aGh := (treePair p.trees ghost s.1).gh })) with
    | some recs => [IterEvent.corner recs]
    | none => []
  else []

/-- Embedding of `p4est_iterate` (p4est_iterate.c, lines 2354-2483, 2D): a
`NULL` ghost layer is replaced by an empty array; an empty forest returns at
once; with only a volume callback the simple fast path runs; otherwise every
tree is processed by the volume driver, then its inter-tree faces and, when
a corner callback is present, its inter-tree corners, in tree order. -/
def p4est_iterate (p : P4estForest)
    (Ghost_layer : Option (List (Quadrant × Nat)))
    (hasVolume hasFace hasCorner : Bool) : List IterEvent :=
  let ghost := Ghost_layer.getD []
  if p.first_local_tree < 0 then []
  else if hasFace = false ∧ hasCorner = false then
    if hasVolume = false then []
    else p4est_volume_iterate_simple p.trees p.first_local_tree
      p.last_local_tree
  else
    (List.range p.trees.length).bind (fun t =>
      p4est_volume_iterate t hasVolume hasFace hasCorner
          (P4EST_MAXLEVEL + 1) (treePair p.trees ghost t)
        ++ (List.range 4).bind
          (interTreeFace p ghost hasFace hasCorner (P4EST_MAXLEVEL + 1) t)
        ++ (if hasCorner then
            (List.range 4).bind (interTreeCorner p ghost t)
          else []))

/-- Strict lexicographic order on (tree id, sequence index) pairs. -/
def lexLtPair (a b : Nat × Nat) : Prop :=
  a.1 < b.1 ∨ (a.1 = b.1 ∧ a.2 < b.2)

/-- The (tree id, quadrant index) pair of each visit of the simple volume
path. -/
def simpleTracePairs (trees : List (List Quadrant)) (first last : Int) :
    List (Nat × Nat) :=
  (p4est_volume_iterate_simple trees first last).map (fun ev =>
    match ev with
    | .volume t si _ => (t, si)
    | _ => (0, 0))

theorem pairwise_bind_of {α β : Type} (R : α → α → Prop) (f : β → List α)
    (l : List β) (h1 : ∀ b ∈ l, (f b).Pairwise R)
    (h2 : l.Pairwise (fun b c => ∀ x ∈ f b, ∀ y ∈ f c, R x y)) :
    (l.bind f).Pairwise R := by
  induction l with
  | nil => simp
  | cons b l ih =>
    have hsplit : (b :: l).bind f = f b ++ l.bind f := rfl
    rw [hsplit, List.pairwise_append]
    refine ⟨h1 b (List.mem_cons_self b l), ?_, ?_⟩
    · exact ih (fun c hc => h1 c (List.mem_cons_of_mem b hc))
        (List.pairwise_cons.mp h2).2
    · intro x hx y hy
      rcases List.mem_bind.mp hy with ⟨c, hc, hyc⟩
      exact (List.pairwise_cons.mp h2).1 c hc x hx y hyc

theorem simpleTracePairs_eq (trees : List (List Quadrant))
    (first last : Int) :
    simpleTracePairs trees first last
      = (List.range' first.toNat (last + 1 - first).toNat).bind (fun t =>
          (List.range (trees.getD t []).length).map (fun si => (t, si))) := by
  rw [simpleTracePairs, p4est_volume_iterate_simple, List.map_bind]
  congr 1
  funext t
  rw [List.map_map]
  rfl

/-- Claim C1: with only a volume callback, `p4est_iterate` bypasses the
search machinery and runs the simple enumeration; the resulting trace visits
pairs (tree id, quadrant index) in strictly increasing lexicographic order
(hence each at most once), covers exactly the local quadrants (every tree
from the first to the last local tree, every stored index), and every event
is the volume visit of the stored quadrant of its pair. -/
theorem claim_C1_theorem (p : P4estForest)
    (gl : Option (List (Quadrant × Nat)))
    (hfl : 0 ≤ p.first_local_tree) :
    p4est_iterate p gl true false false
        = p4est_volume_iterate_simple p.trees p.first_local_tree
            p.last_local_tree ∧
      List.Pairwise lexLtPair
        (simpleTracePairs p.trees p.first_local_tree p.last_local_tree) ∧
      (∀ t si : Nat,
        (t, si) ∈ simpleTracePairs p.trees p.first_local_tree
            p.last_local_tree ↔
          (p.first_local_tree ≤ (t : Int) ∧ (t : Int) ≤ p.last_local_tree ∧
            si < (p.trees.getD t []).length)) ∧
      (∀ ev ∈ p4est_volume_iterate_simple p.trees p.first_local_tree
          p.last_local_tree,
        ∃ t si, ev = IterEvent.volume t si ((p.trees.getD t []).getD si
          default)) := by
  refine ⟨?_, ?_, ?_, ?_⟩
  · rw [p4est_iterate]
    rw [if_neg (Int.not_lt.mpr hfl), if_pos ⟨rfl, rfl⟩,
      if_neg (show ¬ (true = false) by simp)]
  · rw [simpleTracePairs_eq]
    refine pairwise_bind_of lexLtPair _ _ ?_ ?_
    · intro t _
      rw [List.pairwise_map]
      refine (List.pairwise_lt_range _).imp ?_
      intro a b hab
      exact Or.inr ⟨rfl, hab⟩
    · refine (List.pairwise_lt_range' ..).imp ?_
      intro a b hab x hx y hy
      rcases List.mem_map.mp hx with ⟨sa, _, hxa⟩
      rcases List.mem_map.mp hy with ⟨sb, _, hyb⟩
      rw [← hxa, ← hyb]
      exact Or.inl hab
  · intro t si
    rw [simpleTracePairs_eq]
    simp only [List.mem_bind, List.mem_map, List.mem_range, List.mem_range'_1,
      Prod.mk.injEq]
    constructor
    · rintro ⟨a, ⟨ha1, ha2⟩, b, hb, hba, hbb⟩
      subst hba
      subst hbb
      refine ⟨?_, ?_, hb⟩ <;> omega
    · rintro ⟨h1, h2, h3⟩
      exact ⟨t, ⟨by omega, by omega⟩, si, h3, rfl, rfl⟩
  · intro ev hev
    rw [p4est_volume_iterate_simple] at hev
    rcases List.mem_bind.mp hev with ⟨t, _, hm⟩
    rcases List.mem_map.mp hm with ⟨si, _, hsi⟩
    exact ⟨t, si, hsi.symm⟩

/-- Witness forest for claim C1: two local trees with one and two quadrants.
-/
def c1Forest : P4estForest :=
  { conn := { faceNeighbor := fun _ _ => none,
              faceChildId := fun _ _ _ => 0,
              cornerSides := fun _ _ => [] },
    trees := [[⟨0, 0, 0⟩], [⟨0, 0, 1⟩, ⟨2 ^ 29, 0, 1⟩]],
    first_local_tree := 0,
    last_local_tree := 1 }

/-- Claim C1, witness: the volume-only dispatch and the ordered trace on the
witness forest. -/
theorem claim_C1_witness :
    p4est_iterate c1Forest none true false false
        = p4est_volume_iterate_simple c1Forest.trees 0 1 ∧
      List.Pairwise lexLtPair (simpleTracePairs c1Forest.trees 0 1) ∧
      ((0, 0) ∈ simpleTracePairs c1Forest.trees 0 1 ↔
        ((0 : Int) ≤ (0 : Int) ∧ (0 : Int) ≤ (1 : Int) ∧
          0 < (c1Forest.trees.getD 0 []).length)) := by
  have h := claim_C1_theorem c1Forest none (by decide)
  exact ⟨h.1, h.2.1, h.2.2.1 0 0⟩

/-! ### Claim C10: NULL ghost layer behaves as an empty ghost layer -/

/-- A full record that does not come from the ghost layer: missing, or
local. -/
def fullRecNotGhost (r : FullRec) : Prop := r.quad = none ∨ r.is_local = true

/-- No side variant of a face record comes from the ghost layer. -/
def sideKindNotGhost : FaceSideKind → Prop
  | .full r => fullRecNotGhost r
  | .hanging h0 h1 => fullRecNotGhost h0 ∧ fullRecNotGhost h1

/-- No side record of an event comes from the ghost layer. -/
def eventNotGhost : IterEvent → Prop
  | .volume _ _ _ => True
  | .face _ sides => ∀ s ∈ sides, sideKindNotGhost s.kind
  | .corner sides => ∀ s ∈ sides, s.quad = none ∨ s.is_local = true

/-- No resolved record carried by a scan outcome comes from the ghost
layer. -/
def scanOutNotGhost : ScanOut → Prop
  | .emit ev => eventNotGhost ev
  | .next => True
  | .fall _ _ g0 g1 _ =>
    (∀ r ∈ g0, fullRecNotGhost r) ∧ (∀ r ∈ g1, fullRecNotGhost r)

theorem child_len_zero (a : Area) (ha : a.len = 0) (lv c : Nat) :
    (a.child lv c).len = 0 := by
  simp [Area.child, Area.view, ha]

theorem cornerSideCandidate_none_of_empty (lv c : Nat) (a : Area)
    (ha : a.len = 0) : cornerSideCandidate lv c a = none := by
  rw [cornerSideCandidate, if_pos ha]

theorem corner_notGhost (lv : Nat) (sides : List CornerSideIn)
    (hg : ∀ s ∈ sides, s.aGh.len = 0) (recs : List CornerSideRec)
    (hrun : p4est_corner_iterate lv sides = some recs) :
    ∀ r ∈ recs, r.quad = none ∨ r.is_local = true := by
  rw [p4est_corner_iterate] at hrun
  by_cases h1 : sides.all (fun s => s.aLoc.len = 0) = true
  · rw [if_pos h1] at hrun
    cases hrun
  · rw [if_neg h1] at hrun
    simp only at hrun
    by_cases h2 : (sides.map (fun s =>
        cornerSideResolve lv s.treeid s.corner s.aLoc s.aGh)).any
        (fun r => r.is_local) = true
    · rw [if_pos h2] at hrun
      injection hrun with hrun
      subst hrun
      intro r hr
      rcases List.mem_map.mp hr with ⟨s, hs, hmap⟩
      rw [cornerSideResolve] at hmap
      rcases hloc : cornerSideCandidate lv s.corner s.aLoc with _ | cand
      · rw [hloc,
          cornerSideCandidate_none_of_empty lv s.corner s.aGh (hg s hs)]
          at hmap
        simp only at hmap
        rw [← hmap]
        left
        rfl
      · rw [hloc] at hmap
        simp only at hmap
        rw [← hmap]
        right
        rfl
    · rw [if_neg h2] at hrun
      cases hrun

theorem hangingSlot_notGhost (ch : AreaPair) (hg : ch.gh.len = 0) :
    fullRecNotGhost (hangingSlot ch) := by
  rw [hangingSlot]
  simp only [hg, ne_eq, not_true_eq_false, if_neg (by simp : ¬ (0 : Nat) ≠ 0)]
  by_cases hl : ch.loc.len ≠ 0
  · rw [if_pos hl]
    right
    rfl
  · rw [if_neg hl]
    left
    rfl

theorem mkFaceEvent_notGhost (stat : FaceArgsStat) (k0 k1 : FaceSideKind)
    (h0 : sideKindNotGhost k0) (h1 : sideKindNotGhost k1) :
    eventNotGhost (mkFaceEvent stat k0 k1) := by
  rw [mkFaceEvent]
  intro s hs
  rcases List.mem_cons.mp hs with h | h
  · rw [h]
    exact h0
  · rcases List.mem_singleton.mp h with h
    rw [h]
    exact h1

theorem mkFaceEventOut_notGhost (stat : FaceArgsStat) (k0 : FaceSideKind)
    (h0 : sideKindNotGhost k0) :
    eventNotGhost (mkFaceEventOut stat k0) := by
  rw [mkFaceEventOut]
  intro s hs
  rcases List.mem_singleton.mp hs with h
  rw [h]
  exact h0

theorem nullFullRec_notGhost : fullRecNotGhost nullFullRec := Or.inl rfl

theorem atLevel_false_of_len_zero (a : Area) (lv : Nat) (ha : a.len = 0) :
    ¬ (a.atLevel lv = true) := by
  rw [atLevel_of_empty a lv ha]
  exact Bool.false_ne_true

theorem scanSide1_notGhost (stat : FaceArgsStat) (lv : Nat)
    (L R : AreaPair) (r0 : Bool) (g0 : Option FullRec) (hl : Bool)
    (hLg : L.gh.len = 0) (hRg : R.gh.len = 0)
    (hg0 : ∀ r ∈ g0, fullRecNotGhost r) :
    scanOutNotGhost (scanSide1 stat lv L R r0 g0 hl) := by
  rw [scanSide1]
  split_ifs
  all_goals first
    | exact absurd (by assumption : L.gh.atLevel lv = true)
        (atLevel_false_of_len_zero L.gh lv hLg)
    | exact absurd (by assumption : R.gh.atLevel lv = true)
        (atLevel_false_of_len_zero R.gh lv hRg)
    | exact mkFaceEvent_notGhost stat _ _ nullFullRec_notGhost (Or.inr rfl)
    | trivial
    | exact ⟨hg0, fun r hr => by
        rcases Option.mem_some_iff.mp hr with h
        rw [← h]
        right
        rfl⟩
    | exact ⟨hg0, fun r hr => by cases hr⟩

theorem scanInside_notGhost (stat : FaceArgsStat) (lv : Nat)
    (L R : AreaPair) (hLg : L.gh.len = 0) (hRg : R.gh.len = 0) :
    scanOutNotGhost (scanInside stat lv L R) := by
  rw [scanInside]
  split_ifs
  all_goals first
    | exact absurd (by assumption : L.gh.atLevel lv = true)
        (atLevel_false_of_len_zero L.gh lv hLg)
    | exact absurd (by assumption : R.gh.atLevel lv = true)
        (atLevel_false_of_len_zero R.gh lv hRg)
    | exact mkFaceEvent_notGhost stat _ _ (Or.inr rfl) (Or.inr rfl)
    | exact mkFaceEvent_notGhost stat _ _ (Or.inr rfl) nullFullRec_notGhost
    | trivial
    | exact scanSide1_notGhost stat lv L R false _ true hLg hRg
        (fun r hr => by
          rcases Option.mem_some_iff.mp hr with h
          rw [← h]
          right
          rfl)
    | exact scanSide1_notGhost stat lv L R false _ false hLg hRg
        (fun r hr => by
          rcases Option.mem_some_iff.mp hr with h
          rw [← h]
          right
          rfl)
    | exact scanSide1_notGhost stat lv L R true none false hLg hRg
        (fun r hr => by cases hr)

theorem scanOutside_notGhost (stat : FaceArgsStat) (lv : Nat)
    (L : AreaPair) (hLg : L.gh.len = 0) :
    scanOutNotGhost (scanOutside stat lv L) := by
  rw [scanOutside]
  split_ifs
  all_goals first
    | exact absurd (by assumption : L.gh.atLevel lv = true)
        (atLevel_false_of_len_zero L.gh lv hLg)
    | exact mkFaceEventOut_notGhost stat _ (Or.inr rfl)
    | trivial
    | exact ⟨(fun r hr => by cases hr), (fun r hr => by cases hr)⟩

set_option maxHeartbeats 2000000 in
theorem hangingAssembly_notGhost (stat : FaceArgsStat) (lv : Nat)
    (L R : AreaPair) (n : Nat) (coarse : FullRec) (hl : Bool)
    (hLg : L.gh.len = 0) (hRg : R.gh.len = 0)
    (hcoarse : fullRecNotGhost coarse) :
    ∀ ev ∈ hangingAssembly stat lv L R n coarse hl, eventNotGhost ev := by
  intro ev hev
  rw [hangingAssembly] at hev
  have hsL0 := hangingSlot_notGhost (L.child lv (stat.ntc (n * 2)))
    (child_len_zero _ hLg lv (stat.ntc (n * 2)))
  have hsL1 := hangingSlot_notGhost (L.child lv (stat.ntc (n * 2 + 1)))
    (child_len_zero _ hLg lv (stat.ntc (n * 2 + 1)))
  have hsR0 := hangingSlot_notGhost (R.child lv (stat.ntc (n * 2)))
    (child_len_zero _ hRg lv (stat.ntc (n * 2)))
  have hsR1 := hangingSlot_notGhost (R.child lv (stat.ntc (n * 2 + 1)))
    (child_len_zero _ hRg lv (stat.ntc (n * 2 + 1)))
  split_ifs at hev
  all_goals first
    | (rcases List.mem_singleton.mp hev with h
       rw [h]
       first
       | exact mkFaceEvent_notGhost stat _ _ hcoarse
           ⟨(by first
                | exact hsL0
                | exact hsL1
                | exact hsR0
                | exact hsR1
                | exact nullFullRec_notGhost),
            (by first
                | exact hsL0
                | exact hsL1
                | exact hsR0
                | exact hsR1
                | exact nullFullRec_notGhost)⟩
       | exact mkFaceEvent_notGhost stat _ _
           ⟨(by first
                | exact hsL0
                | exact hsL1
                | exact hsR0
                | exact hsR1
                | exact nullFullRec_notGhost),
            (by first
                | exact hsL0
                | exact hsL1
                | exact hsR0
                | exact hsR1
                | exact nullFullRec_notGhost)⟩ hcoarse)
    | cases hev

theorem faceVisit_notGhost (stat : FaceArgsStat) :
    ∀ fuel lv (L R : AreaPair), L.gh.len = 0 → R.gh.len = 0 →
      ∀ ev ∈ faceVisit stat fuel lv L R, eventNotGhost ev := by
  intro fuel
  induction fuel with
  | zero =>
    intro lv L R _ _ ev hev
    simp [faceVisit] at hev
  | succ fuel ih =>
    intro lv L R hLg hRg ev hev
    rw [faceVisit] at hev
    have hscanNG : scanOutNotGhost (if stat.outside = true
        then scanOutside stat lv L else scanInside stat lv L R) := by
      by_cases ho : stat.outside = true
      · rw [if_pos ho]
        exact scanOutside_notGhost stat lv L hLg
      · rw [if_neg ho]
        exact scanInside_notGhost stat lv L R hLg hRg
    cases hscan : (if stat.outside = true then scanOutside stat lv L
        else scanInside stat lv L R) with
    | emit ev2 =>
      rw [hscan] at hscanNG
      simp only [hscan] at hev
      rcases List.mem_singleton.mp hev with h
      rw [h]
      exact hscanNG
    | next =>
      simp only [hscan] at hev
      simp at hev
    | fall r0 r1 g0 g1 hl =>
      rw [hscan] at hscanNG
      obtain ⟨hg0, hg1⟩ := hscanNG
      have hc0 : fullRecNotGhost (g0.getD nullFullRec) := by
        cases g0 with
        | none => exact nullFullRec_notGhost
        | some r => exact hg0 r rfl
      have hc1 : fullRecNotGhost (g1.getD nullFullRec) := by
        cases g1 with
        | none => exact nullFullRec_notGhost
        | some r => exact hg1 r rfl
      simp only [hscan] at hev
      by_cases hr0 : r0 = false
      · rw [if_pos hr0] at hev
        exact hangingAssembly_notGhost stat lv L R 1 _ hl hLg hRg hc0 ev hev
      · rw [if_neg hr0] at hev
        by_cases hr1 : r1 = false
        · rw [if_pos hr1] at hev
          exact hangingAssembly_notGhost stat lv L R 0 _ hl hLg hRg hc1 ev hev
        · rw [if_neg hr1] at hev
          rcases List.mem_append.mp hev with hev | hev
          · rcases List.mem_bind.mp hev with ⟨b, _, hev⟩
            by_cases hemp : (if stat.outside = true
                then (L.child lv (stat.ntc b)).loc.len = 0
                else (L.child lv (stat.ntc b)).loc.len = 0
                  ∧ (R.child lv (stat.ntc (2 + b))).loc.len = 0)
            · rw [if_pos hemp] at hev
              cases hev
            · rw [if_neg hemp] at hev
              exact ih (lv + 1) _ _ (child_len_zero _ hLg lv (stat.ntc b))
                (child_len_zero _ hRg lv (stat.ntc (2 + b))) ev hev
          · by_cases hlc : stat.loopCorner = true
            · rw [if_pos hlc] at hev
              rcases hcall : p4est_corner_iterate (lv + 1)
                  ((List.range 2).bind (fun j =>
                    (List.range ((if stat.outside = true then 0 else 1) + 1)).map
                      (fun k =>
                        ({ treeid := if k = 0 then stat.tid0 else stat.tid1,
                           corner := stat.ntc (k * 2 + (1 - j)),
                           aLoc := (if k = 0 then L else R).loc.child lv
                             (stat.ntc (k * 2 + j)),
                           aGh := (if k = 0 then L else R).gh.child lv
                             (stat.ntc (k * 2 + j)) } : CornerSideIn))))
                  with _ | recs
              · rw [hcall] at hev
                cases hev
              · rw [hcall] at hev
                rcases List.mem_singleton.mp hev with h
                rw [h]
                have hsides : ∀ s ∈ (List.range 2).bind (fun j =>
                    (List.range ((if stat.outside = true then 0 else 1) + 1)).map
                      (fun k =>
                        ({ treeid := if k = 0 then stat.tid0 else stat.tid1,
                           corner := stat.ntc (k * 2 + (1 - j)),
                           aLoc := (if k = 0 then L else R).loc.child lv
                             (stat.ntc (k * 2 + j)),
                           aGh := (if k = 0 then L else R).gh.child lv
                             (stat.ntc (k * 2 + j)) } : CornerSideIn))),
                    s.aGh.len = 0 := by
                  intro s hs
                  rcases List.mem_bind.mp hs with ⟨j, _, hs⟩
                  rcases List.mem_map.mp hs with ⟨k, _, hmap⟩
                  rw [← hmap]
                  show ((if k = 0 then L else R).gh.child lv
                    (stat.ntc (k * 2 + j))).len = 0
                  by_cases hk : k = 0
                  · rw [if_pos hk]
                    exact child_len_zero _ hLg lv _
                  · rw [if_neg hk]
                    exact child_len_zero _ hRg lv _
                exact corner_notGhost (lv + 1) _ hsides recs hcall
            · rw [if_neg hlc] at hev
              cases hev

theorem p4est_face_iterate_notGhost (stat : FaceArgsStat)
    (fuel lv : Nat) (L R : AreaPair) (hLg : L.gh.len = 0)
    (hRg : R.gh.len = 0) :
    ∀ ev ∈ p4est_face_iterate stat fuel lv L R, eventNotGhost ev := by
  intro ev hev
  rw [p4est_face_iterate] at hev
  split_ifs at hev
  all_goals first
    | cases hev
    | exact faceVisit_notGhost stat fuel lv L R hLg hRg ev hev

theorem volVisit_notGhost (t : Nat) (hv hf lc : Bool) :
    ∀ fuel lv (A : AreaPair), A.gh.len = 0 →
      ∀ ev ∈ volVisit t hv hf lc fuel lv A, eventNotGhost ev := by
  intro fuel
  induction fuel with
  | zero =>
    intro lv A _ ev hev
    simp [volVisit] at hev
  | succ fuel ih =>
    intro lv A hAg ev hev
    rw [volVisit] at hev
    by_cases h1 : A.loc.atLevel lv = true
    · rw [if_pos h1] at hev
      by_cases h2 : hv = true
      · rw [if_pos h2] at hev
        rcases List.mem_singleton.mp hev with h
        rw [h]
        trivial
      · rw [if_neg h2] at hev
        cases hev
    · rw [if_neg h1] at hev
      by_cases h2 : A.gh.atLevel lv = true
      · rw [if_pos h2] at hev
        cases hev
      · rw [if_neg h2] at hev
        rcases List.mem_append.mp hev with hev | hev
        · rcases List.mem_append.mp hev with hev | hev
          · rcases List.mem_bind.mp hev with ⟨b, _, hev⟩
            by_cases hemp : (A.child lv b).loc.len = 0
            · rw [if_pos hemp] at hev
              cases hev
            · rw [if_neg hemp] at hev
              exact ih (lv + 1) _ (child_len_zero _ hAg lv b) ev hev
          · rcases List.mem_bind.mp hev with ⟨dir, _, hev⟩
            rcases List.mem_bind.mp hev with ⟨pos, _, hev⟩
            exact p4est_face_iterate_notGhost _ fuel (lv + 1) _ _
              (child_len_zero _ hAg lv _) (child_len_zero _ hAg lv _) ev hev
        · by_cases hlc : lc = true
          · rw [if_pos hlc] at hev
            rcases hcall : p4est_corner_iterate (lv + 1)
                ((List.range 4).map (fun i =>
                  ({ treeid := t, corner := 3 - i,
                     aLoc := (A.child lv i).loc,
                     aGh := (A.child lv i).gh } : CornerSideIn)))
                with _ | recs
            · rw [hcall] at hev
              cases hev
            · rw [hcall] at hev
              rcases List.mem_singleton.mp hev with h
              rw [h]
              have hsides : ∀ s ∈ (List.range 4).map (fun i =>
                  ({ treeid := t, corner := 3 - i,
                     aLoc := (A.child lv i).loc,
                     aGh := (A.child lv i).gh } : CornerSideIn)),
                  s.aGh.len = 0 := by
                intro s hs
                rcases List.mem_map.mp hs with ⟨i, _, hmap⟩
                rw [← hmap]
                exact child_len_zero _ hAg lv i
              exact corner_notGhost (lv + 1) _ hsides recs hcall
          · rw [if_neg hlc] at hev
            cases hev

theorem treePair_gh_len_zero (trees : List (List Quadrant)) (t : Nat) :
    (treePair trees [] t).gh.len = 0 := rfl

theorem interTreeFace_notGhost (p : P4estForest) (hasF hasC : Bool)
    (fuel t f : Nat) :
    ∀ ev ∈ interTreeFace p [] hasF hasC fuel t f, eventNotGhost ev := by
  intro ev hev
  rw [interTreeFace] at hev
  rcases hnb : p.conn.faceNeighbor t f with _ | nb
  · simp only [hnb] at hev
    exact p4est_face_iterate_notGhost _ fuel 0 _ _
      (treePair_gh_len_zero p.trees t) (treePair_gh_len_zero p.trees t) ev hev
  · simp only [hnb] at hev
    split_ifs at hev
    · exact p4est_face_iterate_notGhost _ fuel 0 _ _
        (treePair_gh_len_zero p.trees t)
        (treePair_gh_len_zero p.trees nb.1) ev hev
    · cases hev

theorem interTreeCorner_notGhost (p : P4estForest) (t c : Nat) :
    ∀ ev ∈ interTreeCorner p [] t c, eventNotGhost ev := by
  intro ev hev
  rw [interTreeCorner] at hev
  split_ifs at hev
  · cases hcall : p4est_corner_iterate 0
        (({ treeid := t, corner := c,
            aLoc := (treePair p.trees [] t).loc,
            aGh := (treePair p.trees [] t).gh } : CornerSideIn)
          :: (p.conn.cornerSides t c).map (fun s =>
            ({ treeid := s.1, corner := s.2,
               aLoc := (treePair p.trees [] s.1).loc,
               aGh := (treePair p.trees [] s.1).gh } : CornerSideIn))) with
    | none =>
      simp only [hcall] at hev
      simp at hev
    | some recs =>
      simp only [hcall] at hev
      rcases List.mem_singleton.mp hev with h
      rw [h]
      refine corner_notGhost 0 _ ?_ recs hcall
      intro s hs
      rcases List.mem_cons.mp hs with h4 | h4
      · rw [h4]
        exact treePair_gh_len_zero p.trees t
      · rcases List.mem_map.mp h4 with ⟨s2, _, hmap⟩
        rw [← hmap]
        exact treePair_gh_len_zero p.trees s2.1
  · cases hev

/-- Claim C10: calling `p4est_iterate` with a NULL ghost layer behaves
identically to calling it with an empty ghost-quadrant array — the same
callbacks are invoked with the same side records in the same order — and in
such a run every side record is reported as not ghost (every filled record
is local; missing records are NULL). -/
theorem claim_C10_theorem (p : P4estForest) (hv hf hc : Bool) :
    p4est_iterate p none hv hf hc = p4est_iterate p (some []) hv hf hc ∧
      ∀ ev ∈ p4est_iterate p none hv hf hc, eventNotGhost ev := by
  refine ⟨rfl, ?_⟩
  intro ev hev
  rw [p4est_iterate] at hev
  by_cases h1 : p.first_local_tree < 0
  · rw [if_pos h1] at hev
    cases hev
  · rw [if_neg h1] at hev
    by_cases h2 : hf = false ∧ hc = false
    · rw [if_pos h2] at hev
      by_cases h3 : hv = false
      · rw [if_pos h3] at hev
        cases hev
      · rw [if_neg h3] at hev
        rw [p4est_volume_iterate_simple] at hev
        rcases List.mem_bind.mp hev with ⟨t2, _, hev⟩
        rcases List.mem_map.mp hev with ⟨si, _, hmap⟩
        rw [← hmap]
        trivial
    · rw [if_neg h2] at hev
      rcases List.mem_bind.mp hev with ⟨t, _, hev⟩
      rcases List.mem_append.mp hev with hev | hev
      · rcases List.mem_append.mp hev with hev | hev
        · rw [p4est_volume_iterate] at hev
          split_ifs at hev
          · cases hev
          · exact volVisit_notGhost t hv hf hc _ 0 _
              (treePair_gh_len_zero p.trees t) ev hev
        · rcases List.mem_bind.mp hev with ⟨f, _, hev⟩
          exact interTreeFace_notGhost p hf hc _ t f ev hev
      · by_cases hhc : hc = true
        · rw [if_pos hhc] at hev
          rcases List.mem_bind.mp hev with ⟨c, _, hev⟩
          exact interTreeCorner_notGhost p t c ev hev
        · rw [if_neg hhc] at hev
          cases hev

end P4est
